import Mathlib

/-!
Verification of the Minesweeper inference engine
(`src/minesweeper/minesweeper.py`, classes `Sentence` and `MinesweeperAI`).

The embedding below mirrors the Python source.  Python `set`s become
`Finset`s; Python `int`s become `Int` (counts may be driven negative by
subtraction before the guards fire); the `knowledge` list of `Sentence`
objects becomes a `List Sentence`, and in-place mutation becomes explicit
state passing on the `AI` record.  Loops over Python sets whose bodies are
order-independent (marking a set of cells mine/safe, collecting
`known_mines()` unions, building the `cells_to_remove` set of one sentence)
are embedded by their set-level effect; the bridging lemmas
`Sentence.markMines_singleton` / `Sentence.markSafes_singleton` and
`AI.markMines_singleton` / `AI.markSafes_singleton` record the
correspondence with the per-cell operations that the source applies one
element at a time.  The unbounded `while update_needed:` loop inside
`add_knowledge` is embedded with explicit fuel (`loopN`); `none` models
exhaustion of the allotted fuel, and the development proves the allotted
fuel always suffices on reachable states, so the embedded `add_knowledge`
is total there exactly as the source loop terminates.
-/

/-- A board cell: a `(row, col)` coordinate pair. -/
abbrev Cell := Nat × Nat

/-- Python class `Sentence`: a set of board cells together with a count of the
number of those cells which are mines.  Structural equality (`__eq__` compares
`cells` and `count`) is the derived `DecidableEq`. -/
structure Sentence where
  cells : Finset Cell
  count : Int
  deriving DecidableEq

/-- Source `Sentence.known_mines`: if `len(self.cells) == self.count and
self.count > 0` return a copy of the cells, else the empty set. -/
def Sentence.known_mines (s : Sentence) : Finset Cell :=
  if (s.cells.card : Int) = s.count ∧ 0 < s.count then s.cells else ∅

/-- Source `Sentence.known_safes`: if `self.count == 0 and len(self.cells) > 0`
return a copy of the cells, else the empty set. -/
def Sentence.known_safes (s : Sentence) : Finset Cell :=
  if s.count = 0 ∧ 0 < s.cells.card then s.cells else ∅

/-- Source `Sentence.mark_mine`: if `cell in self.cells`, remove it and
decrement `count`; otherwise no-op. -/
def Sentence.mark_mine (s : Sentence) (cell : Cell) : Sentence :=
  if cell ∈ s.cells then ⟨s.cells.erase cell, s.count - 1⟩ else s

/-- Source `Sentence.mark_safe`: if `cell in self.cells`, remove it with
`count` unchanged; otherwise no-op. -/
def Sentence.mark_safe (s : Sentence) (cell : Cell) : Sentence :=
  if cell ∈ s.cells then ⟨s.cells.erase cell, s.count⟩ else s

/-- Effect on one sentence of calling `mark_mine` once for every cell of the
finite set `M` (the per-element loop of the source is order-independent:
each marked cell present in the sentence is removed once and accounts for one
decrement of the count). -/
def Sentence.markMines (s : Sentence) (M : Finset Cell) : Sentence :=
  ⟨s.cells \ M, s.count - ((s.cells ∩ M).card : Int)⟩

/-- Effect on one sentence of calling `mark_safe` once for every cell of the
finite set `S`. -/
def Sentence.markSafes (s : Sentence) (S : Finset Cell) : Sentence :=
  ⟨s.cells \ S, s.count⟩

/-- One inner-loop step of the subset-inference scan of
`MinesweeperAI.add_knowledge` (lines 288-307): for the ordered pair
`(s1, s2)`, skip structurally equal pairs, require `s1.cells` a strict subset
of `s2.cells`, build the derived sentence, and append it to the accumulator
`acc` of this pass unless its count is out of range, its cell set is empty, or
a structurally equal sentence is already in the knowledge base `K` or in
`acc`. -/
def inferStep (K : List Sentence) (acc : List Sentence) (s1 s2 : Sentence) :
    List Sentence :=
  if s1 = s2 then acc
  else if s1.cells ⊆ s2.cells ∧ s1.cells ≠ s2.cells then
    let d : Sentence := ⟨s2.cells \ s1.cells, s2.count - s1.count⟩
    if 0 < d.cells.card ∧ 0 ≤ d.count ∧ d.count ≤ (d.cells.card : Int) then
      if d ∈ K ∨ d ∈ acc then acc else acc ++ [d]
    else acc
  else acc

/-- The `new_inferences` list produced by one full subset-inference scan of the
knowledge base `K` (the doubly nested `for s1 in self.knowledge: for s2 in
self.knowledge:` loop). -/
def subsetInferences (K : List Sentence) : List Sentence :=
  K.foldl (fun acc s1 => K.foldl (fun acc s2 => inferStep K acc s1 s2) acc) []

/-- Python class `MinesweeperAI`: grid dimensions, the moves made, the cells
known to be mines, the cells known to be safe, and the knowledge base. -/
structure AI where
  height : Nat
  width : Nat
  moves_made : Finset Cell
  mines : Finset Cell
  safes : Finset Cell
  knowledge : List Sentence
  deriving DecidableEq

/-- Source `MinesweeperAI.__init__` (with empty sets and empty knowledge). -/
def AI.init (height width : Nat) : AI :=
  ⟨height, width, ∅, ∅, ∅, []⟩

/-- Source `MinesweeperAI.mark_mine`: add the cell to `mines` and propagate
`Sentence.mark_mine` to every sentence of the knowledge base. -/
def AI.mark_mine (ai : AI) (cell : Cell) : AI :=
  { ai with mines := insert cell ai.mines,
            knowledge := ai.knowledge.map (fun s => s.mark_mine cell) }

/-- Source `MinesweeperAI.mark_safe`: add the cell to `safes` and propagate
`Sentence.mark_safe` to every sentence of the knowledge base. -/
def AI.mark_safe (ai : AI) (cell : Cell) : AI :=
  { ai with safes := insert cell ai.safes,
            knowledge := ai.knowledge.map (fun s => s.mark_safe cell) }

/-- The in-bounds neighbours of a cell: all grid cells within one row and one
column, excluding the cell itself (the `for i in range(x-1, x+2)` double loop
of `add_knowledge`, clipped by `0 <= i < height and 0 <= j < width`). -/
def adjCells (height width : Nat) (cell : Cell) : Finset Cell :=
  (Finset.range height ×ˢ Finset.range width).filter fun c =>
    c ≠ cell ∧ cell.1 ≤ c.1 + 1 ∧ c.1 ≤ cell.1 + 1 ∧
      cell.2 ≤ c.2 + 1 ∧ c.2 ≤ cell.2 + 1

/-- The union of `known_mines()` over the knowledge base (the
`new_mines.update(sentence.known_mines())` accumulation of the fixpoint
loop). -/
def AI.extractMines (ai : AI) : Finset Cell :=
  ai.knowledge.foldl (fun acc s => acc ∪ s.known_mines) ∅

/-- The union of `known_safes()` over the knowledge base. -/
def AI.extractSafes (ai : AI) : Finset Cell :=
  ai.knowledge.foldl (fun acc s => acc ∪ s.known_safes) ∅

/-- The mines newly discovered by one pass: the extracted mines that are not
already in `self.mines` (the `if mine not in self.mines:` guard). -/
def AI.newMines (ai : AI) : Finset Cell := ai.extractMines \ ai.mines

/-- The safes newly discovered by one pass. -/
def AI.newSafes (ai : AI) : Finset Cell := ai.extractSafes \ ai.safes

/-- Effect of calling engine-level `mark_mine` once for every cell of `M`. -/
def AI.markMines (ai : AI) (M : Finset Cell) : AI :=
  { ai with mines := ai.mines ∪ M,
            knowledge := ai.knowledge.map (fun s => s.markMines M) }

/-- Effect of calling engine-level `mark_safe` once for every cell of `S`. -/
def AI.markSafes (ai : AI) (S : Finset Cell) : AI :=
  { ai with safes := ai.safes ∪ S,
            knowledge := ai.knowledge.map (fun s => s.markSafes S) }

/-- The direct-extraction step of one pass of the fixpoint loop: mark every
newly discovered mine and then every newly discovered safe. -/
def AI.markStage (ai : AI) : AI :=
  (ai.markMines ai.newMines).markSafes ai.newSafes

/-- Reduction of one sentence by the current `safes` and `mines` sets (the
`cells_to_remove` loop of the source, lines 266-276): every cell of the
sentence that is in `safes` or in `mines` is removed, and the count is
decremented once for each removed cell that is in `mines` but not in `safes`
(the `elif` is reached only when the cell is not in `safes`). -/
def reduceSentence (safes mines : Finset Cell) (s : Sentence) : Sentence :=
  ⟨s.cells \ (safes ∪ mines),
   s.count - ((s.cells.filter fun c => c ∉ safes ∧ c ∈ mines).card : Int)⟩

/-- The rebuild-and-prune step of one pass (lines 264-285): each sentence is
reduced, and the new knowledge base keeps exactly the sentences whose reduced
cell set is non-empty.  A reduced sentence with empty cells and zero count
hits the `elif ... pass` branch; one with empty cells and non-zero count falls
through both branches; neither is appended. -/
def AI.reduceStage (ai : AI) : AI :=
  let newKB :=
    (ai.knowledge.map (reduceSentence ai.safes ai.mines)).filter
      (fun s => decide (s.cells ≠ ∅))
  { ai with knowledge := newKB }

/-- The subset-inference step of one pass (lines 287-310): append all new
inferences to the knowledge base. -/
def AI.inferStage (ai : AI) : AI :=
  { ai with knowledge := ai.knowledge ++ subsetInferences ai.knowledge }

/-- The state after one full pass of the fixpoint loop of `add_knowledge`. -/
def AI.passState (ai : AI) : AI :=
  ai.markStage.reduceStage.inferStage

/-- The `update_needed` flag computed by one pass: some mine or safe was newly
discovered, or the rebuilt knowledge base is shorter, or some inference was
added. -/
def AI.passChanged (ai : AI) : Prop :=
  ai.newMines ≠ ∅ ∨ ai.newSafes ≠ ∅ ∨
    ai.markStage.reduceStage.knowledge.length < ai.markStage.knowledge.length ∨
    subsetInferences ai.markStage.reduceStage.knowledge ≠ []

instance (ai : AI) : Decidable ai.passChanged := by
  unfold AI.passChanged; infer_instance

/-- The fixpoint loop (`update_needed = True; while update_needed:`), with
explicit fuel: run one pass; if it reported a change, loop on the new state,
otherwise return it.  `none` means the fuel was exhausted. -/
def loopN : Nat → AI → Option AI
  | 0, _ => none
  | n + 1, ai => if ai.passChanged then loopN n ai.passState else some ai.passState

/-- Every cell mentioned anywhere in the state: the cells of the knowledge
base together with `mines` and `safes`.  This set never grows across a pass
and bounds the universe from which new marks and new inferences are drawn. -/
def AI.cellUniverse (ai : AI) : Finset Cell :=
  (ai.knowledge.foldl (fun acc s => acc ∪ s.cells) ∅) ∪ ai.mines ∪ ai.safes

/-- An upper bound on the number of distinct sentences with non-empty cells
drawn from `V` and count between `0` and the cell count. -/
def sentBound (V : Finset Cell) : Nat := 2 ^ V.card * (V.card + 1)

/-- Sentences counted by the termination measure: cells drawn from `V`,
non-empty, count within range. -/
def goodSent (V : Finset Cell) (s : Sentence) : Prop :=
  s.cells ⊆ V ∧ s.cells ≠ ∅ ∧ 0 ≤ s.count ∧ s.count ≤ (s.cells.card : Int)

instance (V : Finset Cell) (s : Sentence) : Decidable (goodSent V s) := by
  unfold goodSent; infer_instance

/-- The number of distinct in-range sentences currently in the knowledge
base. -/
def AI.goodCount (V : Finset Cell) (ai : AI) : Nat :=
  (ai.knowledge.toFinset.filter (goodSent V)).card

/-- Termination measure for the fixpoint loop relative to a universe `V`
containing `cellUniverse`: it strictly decreases across every changed pass
(mass on unclassified cells, on missing in-range sentences, and on the
knowledge-base length). -/
def AI.loopMeasure (V : Finset Cell) (ai : AI) : Nat :=
  (3 * sentBound V + 1) * (V \ (ai.mines ∪ ai.safes)).card
    + 2 * (sentBound V - ai.goodCount V) + ai.knowledge.length

/-- Steps 1-3 of `MinesweeperAI.add_knowledge`: record the move, mark the
probed cell safe, build the new sentence from the undetermined in-bounds
neighbours (decrementing the reported count once for each in-bounds neighbour
already known to be a mine), and insert it unless empty or already
(structurally) present. -/
def AI.obsState (ai : AI) (cell : Cell) (count : Int) : AI :=
  let ai1 : AI := { ai with moves_made := insert cell ai.moves_made }
  let ai2 : AI := ai1.mark_safe cell
  let adj : Finset Cell := adjCells ai2.height ai2.width cell
  let nbrs : Finset Cell :=
    adj.filter fun c => c ∉ ai2.moves_made ∧ c ∉ ai2.safes ∧ c ∉ ai2.mines
  let cnt : Int := count - ((adj.filter fun c => c ∈ ai2.mines).card : Int)
  if nbrs ≠ ∅ then
    (if (⟨nbrs, cnt⟩ : Sentence) ∈ ai2.knowledge then ai2
     else { ai2 with knowledge := ai2.knowledge ++ [⟨nbrs, cnt⟩] })
  else ai2

/-- Source `MinesweeperAI.add_knowledge`: steps 1-3 (`obsState`) followed by
the fixpoint loop.  The fuel handed to the loop is proved sufficient on
reachable states, so a `none` result corresponds to the source loop not
terminating within the allotted (always sufficient) bound. -/
def AI.add_knowledge (ai : AI) (cell : Cell) (count : Int) : Option AI :=
  loopN ((ai.obsState cell count).loopMeasure
    (ai.obsState cell count).cellUniverse + 1) (ai.obsState cell count)

/-- Source `MinesweeperAI.make_safe_move`: return some cell of `safes` not yet
in `moves_made`, or `None` when no such cell exists.  The source iterates over
the Python set `self.safes` in unspecified order and returns the first
eligible cell; the embedding fixes one concrete choice (the minimum under the
`Nat.pair` encoding), which is one of the behaviours the source may exhibit.
The method reads `safes` and `moves_made` and mutates nothing, which the
embedding reflects by returning only the chosen cell. -/
def AI.make_safe_move (ai : AI) : Option Cell :=
  if h : (ai.safes \ ai.moves_made).Nonempty then
    some (Nat.unpair
      (((ai.safes \ ai.moves_made).image fun c => Nat.pair c.1 c.2).min'
        (h.image _)))
  else none

/-- Unrestricted reachability: states produced from a fresh engine by any
sequence of the public operations `add_knowledge`, `mark_mine`,
`mark_safe`. -/
inductive Reachable : AI → Prop
  | init (h w : Nat) : Reachable (AI.init h w)
  | mark_mine {ai : AI} (c : Cell) : Reachable ai → Reachable (ai.mark_mine c)
  | mark_safe {ai : AI} (c : Cell) : Reachable ai → Reachable (ai.mark_safe c)
  | add_obs {ai ai2 : AI} (c : Cell) (k : Int) :
      Reachable ai → ai.add_knowledge c k = some ai2 → Reachable ai2

/-- Reachability under the collaborator contract of the spec (section 6), for
a fixed actual mine placement `M` on an `h × w` grid: `mark_mine` is only
called on actual mines, `mark_safe` only on actual non-mines, and
`add_knowledge` is only called for a probed non-mine cell with the true
number of mines among its in-bounds neighbours. -/
inductive ContractReach (M : Finset Cell) (h w : Nat) : AI → Prop
  | init : ContractReach M h w (AI.init h w)
  | mark_mine {ai : AI} {c : Cell} : c ∈ M → ContractReach M h w ai →
      ContractReach M h w (ai.mark_mine c)
  | mark_safe {ai : AI} {c : Cell} : c ∉ M → ContractReach M h w ai →
      ContractReach M h w (ai.mark_safe c)
  | add_obs {ai ai2 : AI} {c : Cell} : c ∉ M → ContractReach M h w ai →
      ai.add_knowledge c (((adjCells h w c ∩ M).card : Int)) = some ai2 →
      ContractReach M h w ai2

/-- A single public engine operation, unrestricted (used to state monotone
growth of the state sets across any call sequence). -/
inductive PublicStep : AI → AI → Prop
  | mark_mine (ai : AI) (c : Cell) : PublicStep ai (ai.mark_mine c)
  | mark_safe (ai : AI) (c : Cell) : PublicStep ai (ai.mark_safe c)
  | add_obs {ai ai2 : AI} (c : Cell) (k : Int) :
      ai.add_knowledge c k = some ai2 → PublicStep ai ai2

/-! ### Basic lemmas about sentence operations -/

/-- Marking a single mine via the set-level operation agrees with the source's
per-cell `mark_mine`. -/
theorem Sentence.markMines_singleton (s : Sentence) (c : Cell) :
    s.markMines {c} = s.mark_mine c := by
  unfold Sentence.markMines Sentence.mark_mine
  by_cases h : c ∈ s.cells
  · simp [h, Finset.sdiff_singleton_eq_erase, Finset.inter_comm,
      Finset.singleton_inter_of_mem h]
  · simp [h, Finset.sdiff_singleton_eq_erase, Finset.erase_eq_of_not_mem h,
      Finset.inter_comm, Finset.singleton_inter_of_not_mem h]

/-- Marking a single safe cell via the set-level operation agrees with the
source's per-cell `mark_safe`. -/
theorem Sentence.markSafes_singleton (s : Sentence) (c : Cell) :
    s.markSafes {c} = s.mark_safe c := by
  unfold Sentence.markSafes Sentence.mark_safe
  by_cases h : c ∈ s.cells
  · simp [h, Finset.sdiff_singleton_eq_erase]
  · simp [h, Finset.sdiff_singleton_eq_erase, Finset.erase_eq_of_not_mem h]

theorem Sentence.markMines_empty (s : Sentence) : s.markMines ∅ = s := by
  simp [Sentence.markMines]

theorem Sentence.markSafes_empty (s : Sentence) : s.markSafes ∅ = s := by
  simp [Sentence.markSafes]

theorem Sentence.known_mines_subset (s : Sentence) : s.known_mines ⊆ s.cells := by
  unfold Sentence.known_mines; split <;> simp

theorem Sentence.known_safes_subset (s : Sentence) : s.known_safes ⊆ s.cells := by
  unfold Sentence.known_safes; split <;> simp

/-! ### Folded unions -/

theorem mem_foldl_union {α β : Type} [DecidableEq β] (f : α → Finset β)
    (L : List α) (A : Finset β) (x : β) :
    x ∈ L.foldl (fun acc s => acc ∪ f s) A ↔ x ∈ A ∨ ∃ s ∈ L, x ∈ f s := by
  induction L generalizing A with
  | nil => simp
  | cons a t ih =>
    simp only [List.foldl_cons, ih, Finset.mem_union, List.mem_cons]
    constructor
    · rintro ((h | h) | ⟨s, hs, hx⟩)
      · exact Or.inl h
      · exact Or.inr ⟨a, Or.inl rfl, h⟩
      · exact Or.inr ⟨s, Or.inr hs, hx⟩
    · rintro (h | ⟨s, (rfl | hs), hx⟩)
      · exact Or.inl (Or.inl h)
      · exact Or.inl (Or.inr hx)
      · exact Or.inr ⟨s, hs, hx⟩

theorem AI.mem_extractMines (ai : AI) (x : Cell) :
    x ∈ ai.extractMines ↔ ∃ s ∈ ai.knowledge, x ∈ s.known_mines := by
  unfold AI.extractMines; rw [mem_foldl_union]; simp

theorem AI.mem_extractSafes (ai : AI) (x : Cell) :
    x ∈ ai.extractSafes ↔ ∃ s ∈ ai.knowledge, x ∈ s.known_safes := by
  unfold AI.extractSafes; rw [mem_foldl_union]; simp

theorem AI.mem_cellUniverse (ai : AI) (x : Cell) :
    x ∈ ai.cellUniverse ↔
      (∃ s ∈ ai.knowledge, x ∈ s.cells) ∨ x ∈ ai.mines ∨ x ∈ ai.safes := by
  unfold AI.cellUniverse
  simp only [Finset.mem_union, mem_foldl_union, Finset.not_mem_empty, false_or,
    or_assoc]

/-! ### The subset-inference scan -/

/-- Provenance data of one derived inference: the ordered pair it came from,
the strict-subset relation, the shape of the derived sentence, the range
guards it passed, and its absence from the knowledge base it was derived
against. -/
def derivedFrom (K : List Sentence) (x s1 s2 : Sentence) : Prop :=
  s1.cells ⊆ s2.cells ∧ s1.cells ≠ s2.cells ∧
    x = ⟨s2.cells \ s1.cells, s2.count - s1.count⟩ ∧
    0 < x.cells.card ∧ 0 ≤ x.count ∧ x.count ≤ (x.cells.card : Int) ∧ x ∉ K

theorem mem_inferStep_of_mem {K acc : List Sentence} {s1 s2 x : Sentence}
    (h : x ∈ acc) : x ∈ inferStep K acc s1 s2 := by
  simp only [inferStep]
  split
  · exact h
  · split
    · split
      · split
        · exact h
        · exact List.mem_append_left _ h
      · exact h
    · exact h

theorem mem_inferStep_cases {K acc : List Sentence} {s1 s2 x : Sentence}
    (h : x ∈ inferStep K acc s1 s2) : x ∈ acc ∨ derivedFrom K x s1 s2 := by
  simp only [inferStep] at h
  split at h
  · exact Or.inl h
  · split at h
    · rename_i hsub
      split at h
      · rename_i hcond
        split at h
        · exact Or.inl h
        · rename_i hnd
          rcases List.mem_append.mp h with h | h
          · exact Or.inl h
          · rcases List.mem_singleton.mp h with rfl
            push_neg at hnd
            exact Or.inr ⟨hsub.1, hsub.2, rfl, hcond.1, hcond.2.1, hcond.2.2, hnd.1⟩
      · exact Or.inl h
    · exact Or.inl h

theorem mem_inferStep_self {K acc : List Sentence} {s1 s2 : Sentence}
    (h : derivedFrom K (⟨s2.cells \ s1.cells, s2.count - s1.count⟩ : Sentence) s1 s2) :
    (⟨s2.cells \ s1.cells, s2.count - s1.count⟩ : Sentence) ∈ inferStep K acc s1 s2 := by
  obtain ⟨hsub, hne, -, hpos, h0, hle, hnK⟩ := h
  simp only [inferStep]
  have hs12 : s1 ≠ s2 := fun h => hne (by rw [h])
  rw [if_neg hs12, if_pos ⟨hsub, hne⟩]
  rw [if_pos ⟨hpos, h0, hle⟩]
  split
  · rename_i hmem
    rcases hmem with hmem | hmem
    · exact absurd hmem hnK
    · exact hmem
  · exact List.mem_append_right _ (List.mem_singleton.mpr rfl)

theorem mem_innerFold_of_mem {K : List Sentence} {s1 : Sentence}
    {L : List Sentence} {acc : List Sentence} {x : Sentence} (h : x ∈ acc) :
    x ∈ L.foldl (fun acc s2 => inferStep K acc s1 s2) acc := by
  induction L generalizing acc with
  | nil => exact h
  | cons a t ih => exact ih (mem_inferStep_of_mem h)

theorem mem_outerFold_of_mem {K : List Sentence} {L : List Sentence}
    {acc : List Sentence} {x : Sentence} (h : x ∈ acc) :
    x ∈ L.foldl (fun acc s1 => K.foldl (fun acc s2 => inferStep K acc s1 s2) acc) acc := by
  induction L generalizing acc with
  | nil => exact h
  | cons a t ih => exact ih (mem_innerFold_of_mem h)

theorem mem_innerFold_cases {K : List Sentence} {s1 : Sentence}
    {L : List Sentence} {acc : List Sentence} {x : Sentence}
    (h : x ∈ L.foldl (fun acc s2 => inferStep K acc s1 s2) acc) :
    x ∈ acc ∨ ∃ s2 ∈ L, derivedFrom K x s1 s2 := by
  induction L generalizing acc with
  | nil => exact Or.inl h
  | cons a t ih =>
    rcases ih h with h | ⟨s2, hs2, hd⟩
    · rcases mem_inferStep_cases h with h | hd
      · exact Or.inl h
      · exact Or.inr ⟨a, List.mem_cons_self a t, hd⟩
    · exact Or.inr ⟨s2, List.mem_cons_of_mem a hs2, hd⟩

/-- Every sentence produced by the subset-inference scan of `K` comes from an
ordered pair of sentences of `K` whose cell sets are in strict inclusion, has
the shape `⟨B.cells \ A.cells, B.count - A.count⟩`, passed the emptiness and
range guards, and is not structurally equal to any sentence of `K`. -/
theorem subsetInferences_spec {K : List Sentence} {x : Sentence}
    (h : x ∈ subsetInferences K) :
    ∃ s1 ∈ K, ∃ s2 ∈ K, derivedFrom K x s1 s2 := by
  unfold subsetInferences at h
  have main : ∀ (L : List Sentence) (acc : List Sentence),
      (∀ y ∈ acc, ∃ s1 ∈ K, ∃ s2 ∈ K, derivedFrom K y s1 s2) →
      (∀ s ∈ L, s ∈ K) →
      ∀ y ∈ L.foldl (fun acc s1 => K.foldl (fun acc s2 => inferStep K acc s1 s2) acc) acc,
        ∃ s1 ∈ K, ∃ s2 ∈ K, derivedFrom K y s1 s2 := by
    intro L
    induction L with
    | nil => intro acc hacc _ y hy; exact hacc y hy
    | cons a t ih =>
      intro acc hacc hsub y hy
      refine ih _ ?_ (fun s hs => hsub s (List.mem_cons_of_mem a hs)) y hy
      intro z hz
      rcases mem_innerFold_cases hz with hz | ⟨s2, hs2, hd⟩
      · exact hacc z hz
      · exact ⟨a, hsub a (List.mem_cons_self a t), s2, hs2, hd⟩
  exact main K [] (by simp) (fun s hs => hs) x h

theorem mem_innerFold_complete {K : List Sentence} {s1 s2 x : Sentence}
    {L : List Sentence} {acc : List Sentence} (hs2 : s2 ∈ L)
    (hd : derivedFrom K x s1 s2) :
    x ∈ L.foldl (fun acc s2 => inferStep K acc s1 s2) acc := by
  induction L generalizing acc with
  | nil => cases hs2
  | cons a t ih =>
    rcases List.mem_cons.mp hs2 with rfl | hs2
    · rw [List.foldl_cons]
      refine mem_innerFold_of_mem ?_
      obtain ⟨hsub, hne, hx, hpos, h0, hle, hnK⟩ := hd
      subst hx
      exact mem_inferStep_self ⟨hsub, hne, rfl, hpos, h0, hle, hnK⟩
    · rw [List.foldl_cons]
      exact ih hs2

/-- Completeness of the subset-inference scan: if the ordered pair `(s1, s2)`
of sentences of `K` derives `x` and `x` passes all the guards, then `x` is in
the scan's output. -/
theorem subsetInferences_complete {K : List Sentence} {s1 s2 x : Sentence}
    (hs1 : s1 ∈ K) (hs2 : s2 ∈ K) (hd : derivedFrom K x s1 s2) :
    x ∈ subsetInferences K := by
  unfold subsetInferences
  have main : ∀ (L : List Sentence) (acc : List Sentence), s1 ∈ L →
      x ∈ L.foldl (fun acc s1 => K.foldl (fun acc s2 => inferStep K acc s1 s2) acc) acc := by
    intro L
    induction L with
    | nil => intro acc h; cases h
    | cons a t ih =>
      intro acc h
      rcases List.mem_cons.mp h with rfl | h
      · rw [List.foldl_cons]
        exact mem_outerFold_of_mem (mem_innerFold_complete hs2 hd)
      · rw [List.foldl_cons]
        exact ih _ h
  exact main K [] hs1

theorem inferStep_nodup {K acc : List Sentence} {s1 s2 : Sentence}
    (h : acc.Nodup ∧ ∀ x ∈ acc, x ∉ K) :
    (inferStep K acc s1 s2).Nodup ∧ ∀ x ∈ inferStep K acc s1 s2, x ∉ K := by
  simp only [inferStep]
  split
  · exact h
  · split
    · split
      · split
        · exact h
        · rename_i hnd
          push_neg at hnd
          constructor
          · simp only [List.nodup_append, List.nodup_cons, List.nodup_nil]
            refine ⟨h.1, by simp, ?_⟩
            intro x hx
            simp only [List.mem_singleton]
            intro hx2
            subst hx2
            exact hnd.2 hx
          · intro x hx
            rcases List.mem_append.mp hx with hx | hx
            · exact h.2 x hx
            · rcases List.mem_singleton.mp hx with rfl
              exact hnd.1
      · exact h
    · exact h

theorem innerFold_nodup {K : List Sentence} {s1 : Sentence} {L acc : List Sentence}
    (h : acc.Nodup ∧ ∀ x ∈ acc, x ∉ K) :
    (L.foldl (fun acc s2 => inferStep K acc s1 s2) acc).Nodup ∧
      ∀ x ∈ L.foldl (fun acc s2 => inferStep K acc s1 s2) acc, x ∉ K := by
  induction L generalizing acc with
  | nil => exact h
  | cons a t ih => exact ih (inferStep_nodup h)

/-- The inferences of one pass are pairwise structurally distinct, and none of
them is structurally equal to a sentence already in the knowledge base. -/
theorem subsetInferences_nodup (K : List Sentence) :
    (subsetInferences K).Nodup ∧ ∀ x ∈ subsetInferences K, x ∉ K := by
  unfold subsetInferences
  have main : ∀ (L : List Sentence) (acc : List Sentence),
      acc.Nodup ∧ (∀ x ∈ acc, x ∉ K) →
      (L.foldl (fun acc s1 => K.foldl (fun acc s2 => inferStep K acc s1 s2) acc) acc).Nodup ∧
        ∀ x ∈ L.foldl (fun acc s1 => K.foldl (fun acc s2 => inferStep K acc s1 s2) acc) acc,
          x ∉ K := by
    intro L
    induction L with
    | nil => intro acc h; exact h
    | cons a t ih => intro acc h; exact ih _ (innerFold_nodup h)
  exact main K [] (by simp)

/-! ### Stage structure lemmas and state invariants -/

theorem AI.eq_of_fields {a b : AI} (h1 : a.height = b.height)
    (h2 : a.width = b.width) (h3 : a.moves_made = b.moves_made)
    (h4 : a.mines = b.mines) (h5 : a.safes = b.safes)
    (h6 : a.knowledge = b.knowledge) : a = b := by
  cases a; cases b; simp_all

theorem list_map_id_of {α : Type} (l : List α) (f : α → α)
    (h : ∀ x ∈ l, f x = x) : l.map f = l := by
  induction l with
  | nil => rfl
  | cons a t ih =>
    rw [List.map_cons, h a (List.mem_cons_self a t),
      ih (fun x hx => h x (List.mem_cons_of_mem a hx))]

theorem list_filter_eq_self_of_length {α : Type} (l : List α) (p : α → Bool)
    (h : (l.filter p).length = l.length) : l.filter p = l := by
  induction l with
  | nil => rfl
  | cons a t ih =>
    by_cases hp : p a
    · rw [List.filter_cons_of_pos hp] at h ⊢
      rw [ih (by simpa using h)]
    · rw [List.filter_cons_of_neg hp] at h
      have hle := List.length_filter_le p t
      rw [List.length_cons] at h
      exact absurd h (Nat.ne_of_lt (Nat.lt_succ_of_le hle))

theorem AI.markStage_height (ai : AI) : ai.markStage.height = ai.height := rfl
theorem AI.markStage_width (ai : AI) : ai.markStage.width = ai.width := rfl

theorem AI.markStage_moves (ai : AI) :
    ai.markStage.moves_made = ai.moves_made := rfl

theorem AI.markStage_mines (ai : AI) :
    ai.markStage.mines = ai.mines ∪ ai.newMines := rfl

theorem AI.markStage_safes (ai : AI) :
    ai.markStage.safes = ai.safes ∪ ai.newSafes := rfl

theorem AI.markStage_knowledge (ai : AI) :
    ai.markStage.knowledge =
      ai.knowledge.map (fun s => (s.markMines ai.newMines).markSafes ai.newSafes) := by
  show (ai.knowledge.map _).map _ = _
  rw [List.map_map]
  rfl

theorem AI.reduceStage_height (ai : AI) : ai.reduceStage.height = ai.height := rfl
theorem AI.reduceStage_width (ai : AI) : ai.reduceStage.width = ai.width := rfl
theorem AI.reduceStage_moves (ai : AI) :
    ai.reduceStage.moves_made = ai.moves_made := rfl
theorem AI.reduceStage_mines (ai : AI) : ai.reduceStage.mines = ai.mines := rfl
theorem AI.reduceStage_safes (ai : AI) : ai.reduceStage.safes = ai.safes := rfl

theorem AI.reduceStage_knowledge (ai : AI) :
    ai.reduceStage.knowledge =
      (ai.knowledge.map (reduceSentence ai.safes ai.mines)).filter
        (fun s => decide (s.cells ≠ ∅)) := rfl

theorem AI.inferStage_height (ai : AI) : ai.inferStage.height = ai.height := rfl
theorem AI.inferStage_width (ai : AI) : ai.inferStage.width = ai.width := rfl
theorem AI.inferStage_moves (ai : AI) :
    ai.inferStage.moves_made = ai.moves_made := rfl
theorem AI.inferStage_mines (ai : AI) : ai.inferStage.mines = ai.mines := rfl
theorem AI.inferStage_safes (ai : AI) : ai.inferStage.safes = ai.safes := rfl
theorem AI.inferStage_knowledge (ai : AI) :
    ai.inferStage.knowledge = ai.knowledge ++ subsetInferences ai.knowledge := rfl

theorem AI.passState_moves (ai : AI) :
    ai.passState.moves_made = ai.moves_made := rfl

theorem AI.passState_mines (ai : AI) :
    ai.passState.mines = ai.mines ∪ ai.newMines := rfl

theorem AI.passState_safes (ai : AI) :
    ai.passState.safes = ai.safes ∪ ai.newSafes := rfl

theorem AI.passState_height (ai : AI) : ai.passState.height = ai.height := rfl
theorem AI.passState_width (ai : AI) : ai.passState.width = ai.width := rfl

/-- Separation invariant: no cell of any sentence of the knowledge base is
already classified safe or mine.  It holds for every freshly initialised
engine and is re-established by every pass of the fixpoint loop. -/
def sepInv (ai : AI) : Prop :=
  ∀ s ∈ ai.knowledge, ∀ c ∈ s.cells, c ∉ ai.safes ∧ c ∉ ai.mines

theorem newMines_mem {ai : AI} {x : Cell} (h : x ∈ ai.newMines) :
    (∃ s ∈ ai.knowledge, x ∈ s.cells) ∧ x ∉ ai.mines := by
  unfold AI.newMines at h
  rw [Finset.mem_sdiff, AI.mem_extractMines] at h
  obtain ⟨⟨s, hs, hx⟩, hnm⟩ := h
  exact ⟨⟨s, hs, s.known_mines_subset hx⟩, hnm⟩

theorem newSafes_mem {ai : AI} {x : Cell} (h : x ∈ ai.newSafes) :
    (∃ s ∈ ai.knowledge, x ∈ s.cells) ∧ x ∉ ai.safes := by
  unfold AI.newSafes at h
  rw [Finset.mem_sdiff, AI.mem_extractSafes] at h
  obtain ⟨⟨s, hs, hx⟩, hns⟩ := h
  exact ⟨⟨s, hs, s.known_safes_subset hx⟩, hns⟩

theorem newMines_not_classified {ai : AI} (hInv : sepInv ai) {x : Cell}
    (h : x ∈ ai.newMines) : x ∉ ai.safes ∧ x ∉ ai.mines := by
  obtain ⟨⟨s, hs, hx⟩, hnm⟩ := newMines_mem h
  exact ⟨(hInv s hs x hx).1, hnm⟩

theorem newSafes_not_classified {ai : AI} (hInv : sepInv ai) {x : Cell}
    (h : x ∈ ai.newSafes) : x ∉ ai.safes ∧ x ∉ ai.mines := by
  obtain ⟨⟨s, hs, hx⟩, -⟩ := newSafes_mem h
  exact ⟨(hInv s hs x hx).1, (hInv s hs x hx).2⟩

theorem reduceSentence_eq_self {safes mines : Finset Cell} {s : Sentence}
    (h : ∀ c ∈ s.cells, c ∉ safes ∧ c ∉ mines) :
    reduceSentence safes mines s = s := by
  unfold reduceSentence
  have h1 : s.cells \ (safes ∪ mines) = s.cells := by
    rw [Finset.sdiff_eq_self_iff_disjoint, Finset.disjoint_union_right]
    constructor
    · rw [Finset.disjoint_left]; intro c hc; exact (h c hc).1
    · rw [Finset.disjoint_left]; intro c hc; exact (h c hc).2
  have h2 : (s.cells.filter fun c => c ∉ safes ∧ c ∈ mines) = ∅ := by
    rw [Finset.filter_eq_empty_iff]
    intro c hc hcon
    exact (h c hc).2 hcon.2
  rw [h1, h2]
  cases s with
  | mk cs k => simp

theorem markStage_eq_self {ai : AI} (hM : ai.newMines = ∅)
    (hS : ai.newSafes = ∅) : ai.markStage = ai := by
  refine AI.eq_of_fields rfl rfl rfl ?_ ?_ ?_
  · rw [AI.markStage_mines, hM, Finset.union_empty]
  · rw [AI.markStage_safes, hS, Finset.union_empty]
  · rw [AI.markStage_knowledge, hM, hS]
    exact list_map_id_of _ _ (fun s _ => by
      rw [Sentence.markMines_empty, Sentence.markSafes_empty])

theorem sepInv_reduceStage (ai : AI) : sepInv ai.reduceStage := by
  intro s hs c hc
  rw [AI.reduceStage_knowledge] at hs
  rw [List.mem_filter] at hs
  obtain ⟨hs, -⟩ := hs
  rw [List.mem_map] at hs
  obtain ⟨s0, -, rfl⟩ := hs
  unfold reduceSentence at hc
  simp only [Finset.mem_sdiff, Finset.mem_union] at hc
  rw [AI.reduceStage_safes, AI.reduceStage_mines]
  exact ⟨fun h => hc.2 (Or.inl h), fun h => hc.2 (Or.inr h)⟩

theorem sepInv_inferStage {ai : AI} (h : sepInv ai) : sepInv ai.inferStage := by
  intro s hs c hc
  rw [AI.inferStage_knowledge] at hs
  rw [AI.inferStage_safes, AI.inferStage_mines]
  rcases List.mem_append.mp hs with hs | hs
  · exact h s hs c hc
  · obtain ⟨s1, hs1, s2, hs2, hd⟩ := subsetInferences_spec hs
    obtain ⟨-, -, hx, -⟩ := hd
    subst hx
    simp only [Finset.mem_sdiff] at hc
    exact h s2 hs2 c hc.1

theorem sepInv_passState (ai : AI) : sepInv ai.passState :=
  sepInv_inferStage (sepInv_reduceStage ai.markStage)

theorem sepInv_init (h w : Nat) : sepInv (AI.init h w) := by
  intro s hs
  cases hs

/-- Fixed point: when a pass reports no change (under the separation
invariant) it leaves the state exactly as it was. -/
theorem passState_eq_self {ai : AI} (hInv : sepInv ai)
    (hch : ¬ ai.passChanged) : ai.passState = ai := by
  unfold AI.passChanged at hch
  push_neg at hch
  obtain ⟨hM, hS, hlen, hinf⟩ := hch
  have hmk : ai.markStage = ai := markStage_eq_self hM hS
  have hred : ai.markStage.reduceStage = ai := by
    rw [hmk]
    refine AI.eq_of_fields rfl rfl rfl rfl rfl ?_
    rw [AI.reduceStage_knowledge]
    rw [list_map_id_of _ _ (fun s hs => reduceSentence_eq_self (hInv s hs))]
    refine list_filter_eq_self_of_length _ _ ?_
    rw [hmk, AI.reduceStage_knowledge,
      list_map_id_of _ _ (fun s hs => reduceSentence_eq_self (hInv s hs))] at hlen
    have h2 := List.length_filter_le (fun s => decide (s.cells ≠ ∅)) ai.knowledge
    omega
  unfold AI.passState
  rw [hred]
  rw [hred] at hinf
  refine AI.eq_of_fields rfl rfl rfl rfl rfl ?_
  rw [AI.inferStage_knowledge, hinf, List.append_nil]

/-- The `moves_made ⊆ safes` invariant of the engine. -/
def movesSub (ai : AI) : Prop := ai.moves_made ⊆ ai.safes

theorem movesSub_passState {ai : AI} (h : movesSub ai) : movesSub ai.passState := by
  intro c hc
  rw [AI.passState_safes]
  exact Finset.mem_union_left _ (h (by rwa [AI.passState_moves] at hc))

theorem sepInv_mark_mine {ai : AI} (h : sepInv ai) (cell : Cell) :
    sepInv (ai.mark_mine cell) := by
  intro s hs c hc
  unfold AI.mark_mine at hs ⊢
  simp only [List.mem_map] at hs
  obtain ⟨s0, hs0, rfl⟩ := hs
  unfold Sentence.mark_mine at hc
  by_cases hcell : cell ∈ s0.cells
  · rw [if_pos hcell] at hc
    simp only [Finset.mem_erase] at hc
    refine ⟨(h s0 hs0 c hc.2).1, ?_⟩
    simp only [Finset.mem_insert]
    rintro (rfl | hmem)
    · exact hc.1 rfl
    · exact (h s0 hs0 c hc.2).2 hmem
  · rw [if_neg hcell] at hc
    refine ⟨(h s0 hs0 c hc).1, ?_⟩
    simp only [Finset.mem_insert]
    rintro (rfl | hmem)
    · exact hcell hc
    · exact (h s0 hs0 c hc).2 hmem

theorem sepInv_mark_safe {ai : AI} (h : sepInv ai) (cell : Cell) :
    sepInv (ai.mark_safe cell) := by
  intro s hs c hc
  unfold AI.mark_safe at hs ⊢
  simp only [List.mem_map] at hs
  obtain ⟨s0, hs0, rfl⟩ := hs
  unfold Sentence.mark_safe at hc
  by_cases hcell : cell ∈ s0.cells
  · rw [if_pos hcell] at hc
    simp only [Finset.mem_erase] at hc
    refine ⟨?_, (h s0 hs0 c hc.2).2⟩
    simp only [Finset.mem_insert]
    rintro (rfl | hmem)
    · exact hc.1 rfl
    · exact (h s0 hs0 c hc.2).1 hmem
  · rw [if_neg hcell] at hc
    refine ⟨?_, (h s0 hs0 c hc).2⟩
    simp only [Finset.mem_insert]
    rintro (rfl | hmem)
    · exact hcell hc
    · exact (h s0 hs0 c hc).1 hmem

/-! ### The universe of mentioned cells shrinks across a pass -/

theorem mem_kept_knowledge {ai : AI} {s : Sentence}
    (hs : s ∈ ai.markStage.reduceStage.knowledge) :
    ∃ s0 ∈ ai.knowledge, s.cells ⊆ s0.cells := by
  rw [AI.reduceStage_knowledge] at hs
  rw [List.mem_filter] at hs
  obtain ⟨hs, -⟩ := hs
  rw [List.mem_map] at hs
  obtain ⟨s1, hs1, rfl⟩ := hs
  rw [AI.markStage_knowledge, List.mem_map] at hs1
  obtain ⟨s0, hs0, rfl⟩ := hs1
  refine ⟨s0, hs0, ?_⟩
  intro c hc
  unfold reduceSentence Sentence.markSafes Sentence.markMines at hc
  simp only [Finset.mem_sdiff] at hc
  exact hc.1.1.1

theorem mem_passState_knowledge_cells {ai : AI} {s : Sentence}
    (hs : s ∈ ai.passState.knowledge) :
    ∃ s0 ∈ ai.knowledge, s.cells ⊆ s0.cells := by
  unfold AI.passState at hs
  rw [AI.inferStage_knowledge] at hs
  rcases List.mem_append.mp hs with hs | hs
  · exact mem_kept_knowledge hs
  · obtain ⟨s1, hs1, s2, hs2, hd⟩ := subsetInferences_spec hs
    obtain ⟨-, -, hx, -⟩ := hd
    subst hx
    obtain ⟨s0, hs0, hsub⟩ := mem_kept_knowledge hs2
    exact ⟨s0, hs0, fun c hc => hsub (Finset.mem_sdiff.mp hc).1⟩

theorem cellUniverse_passState_subset (ai : AI) :
    ai.passState.cellUniverse ⊆ ai.cellUniverse := by
  intro x hx
  rw [AI.mem_cellUniverse] at hx
  rw [AI.mem_cellUniverse]
  have sentenceCase : (∃ s ∈ ai.knowledge, x ∈ s.cells) →
      (∃ s ∈ ai.knowledge, x ∈ s.cells) ∨ x ∈ ai.mines ∨ x ∈ ai.safes := Or.inl
  rcases hx with ⟨s, hs, hx⟩ | hx | hx
  · obtain ⟨s0, hs0, hsub⟩ := mem_passState_knowledge_cells hs
    exact sentenceCase ⟨s0, hs0, hsub hx⟩
  · rw [AI.passState_mines, Finset.mem_union] at hx
    rcases hx with hx | hx
    · exact Or.inr (Or.inl hx)
    · exact sentenceCase (newMines_mem hx).1
  · rw [AI.passState_safes, Finset.mem_union] at hx
    rcases hx with hx | hx
    · exact Or.inr (Or.inr hx)
    · exact sentenceCase (newSafes_mem hx).1

theorem cellUniverse_kept_subset (ai : AI) :
    ai.markStage.reduceStage.cellUniverse ⊆ ai.cellUniverse := by
  intro x hx
  rw [AI.mem_cellUniverse] at hx
  rw [AI.mem_cellUniverse]
  have sentenceCase : (∃ s ∈ ai.knowledge, x ∈ s.cells) →
      (∃ s ∈ ai.knowledge, x ∈ s.cells) ∨ x ∈ ai.mines ∨ x ∈ ai.safes := Or.inl
  rcases hx with ⟨s, hs, hx⟩ | hx | hx
  · obtain ⟨s0, hs0, hsub⟩ := mem_kept_knowledge hs
    exact sentenceCase ⟨s0, hs0, hsub hx⟩
  · rw [AI.reduceStage_mines, AI.markStage_mines, Finset.mem_union] at hx
    rcases hx with hx | hx
    · exact Or.inr (Or.inl hx)
    · exact sentenceCase (newMines_mem hx).1
  · rw [AI.reduceStage_safes, AI.markStage_safes, Finset.mem_union] at hx
    rcases hx with hx | hx
    · exact Or.inr (Or.inr hx)
    · exact sentenceCase (newSafes_mem hx).1

/-! ### Counting in-range sentences -/

theorem goodFinset_card_le (V : Finset Cell) (S : Finset Sentence)
    (h : ∀ s ∈ S, goodSent V s) : S.card ≤ sentBound V := by
  have hcard : (V.powerset ×ˢ Finset.range (V.card + 1)).card = sentBound V := by
    rw [Finset.card_product, Finset.card_powerset, Finset.card_range, sentBound]
  rw [← hcard]
  refine Finset.card_le_card_of_injOn
    (fun s => (s.cells, s.count.toNat)) ?_ ?_
  · intro s hs
    obtain ⟨hsub, -, h0, hle⟩ := h s hs
    dsimp only
    rw [Finset.mem_product, Finset.mem_powerset, Finset.mem_range]
    refine ⟨hsub, ?_⟩
    have h1 : s.count.toNat ≤ s.cells.card := Int.toNat_le.mpr hle
    have h2 : s.cells.card ≤ V.card := Finset.card_le_card hsub
    omega
  · intro s1 hs1 s2 hs2 heq
    obtain ⟨-, -, h01, -⟩ := h s1 hs1
    obtain ⟨-, -, h02, -⟩ := h s2 hs2
    simp only [Prod.mk.injEq] at heq
    have hcount : s1.count = s2.count := by
      rw [← Int.toNat_of_nonneg h01, ← Int.toNat_of_nonneg h02, heq.2]
    cases s1; cases s2
    simp only [Sentence.mk.injEq]
    exact ⟨heq.1, hcount⟩

theorem goodCount_le_sentBound (V : Finset Cell) (ai : AI) :
    ai.goodCount V ≤ sentBound V := by
  refine goodFinset_card_le V _ ?_
  intro s hs
  exact (Finset.mem_filter.mp hs).2

theorem subsetInferences_good {V : Finset Cell} {b : AI}
    (hV : b.cellUniverse ⊆ V) :
    ∀ d ∈ subsetInferences b.knowledge, goodSent V d := by
  intro d hd
  obtain ⟨s1, hs1, s2, hs2, hd⟩ := subsetInferences_spec hd
  obtain ⟨-, -, hx, hpos, h0, hle, -⟩ := hd
  refine ⟨?_, ?_, h0, hle⟩
  · intro c hc
    refine hV ?_
    rw [AI.mem_cellUniverse]
    subst hx
    exact Or.inl ⟨s2, hs2, (Finset.mem_sdiff.mp hc).1⟩
  · intro hempty
    rw [hempty] at hpos
    simp at hpos

theorem subsetInferences_length_le {V : Finset Cell} {b : AI}
    (hV : b.cellUniverse ⊆ V) :
    (subsetInferences b.knowledge).length ≤ sentBound V := by
  obtain ⟨hnd, -⟩ := subsetInferences_nodup b.knowledge
  rw [← List.toFinset_card_of_nodup hnd]
  refine goodFinset_card_le V _ ?_
  intro s hs
  exact subsetInferences_good hV s (List.mem_toFinset.mp hs)

/-! ### The termination measure decreases across every changed pass -/

theorem goodCount_inferStage {V : Finset Cell} {b : AI}
    (hV : b.cellUniverse ⊆ V) :
    b.inferStage.goodCount V =
      b.goodCount V + (subsetInferences b.knowledge).length := by
  unfold AI.goodCount
  rw [AI.inferStage_knowledge, List.toFinset_append, Finset.filter_union]
  obtain ⟨hnd, hnotin⟩ := subsetInferences_nodup b.knowledge
  have h2 : (subsetInferences b.knowledge).toFinset.filter (goodSent V) =
      (subsetInferences b.knowledge).toFinset := by
    refine Finset.filter_true_of_mem ?_
    intro s hs
    exact subsetInferences_good hV s (List.mem_toFinset.mp hs)
  rw [h2]
  rw [Finset.card_union_of_disjoint]
  · rw [List.toFinset_card_of_nodup hnd]
  · rw [Finset.disjoint_left]
    intro x hx hx2
    exact hnotin x (List.mem_toFinset.mp hx2)
      (List.mem_toFinset.mp (Finset.mem_filter.mp hx).1)

theorem goodFilter_kept (V : Finset Cell) (ai : AI) :
    ((ai.knowledge.filter (fun s => decide (s.cells ≠ ∅))).toFinset.filter
      (goodSent V)) = ai.knowledge.toFinset.filter (goodSent V) := by
  ext s
  simp only [Finset.mem_filter, List.mem_toFinset, List.mem_filter,
    decide_eq_true_eq]
  constructor
  · rintro ⟨⟨hm, -⟩, hg⟩
    exact ⟨hm, hg⟩
  · rintro ⟨hm, hg⟩
    exact ⟨⟨hm, hg.2.1⟩, hg⟩

theorem unclassified_lt {V : Finset Cell} {ai : AI} (hInv : sepInv ai)
    (hV : ai.cellUniverse ⊆ V)
    (hne : ai.newMines ≠ ∅ ∨ ai.newSafes ≠ ∅) :
    (V \ (ai.passState.mines ∪ ai.passState.safes)).card <
      (V \ (ai.mines ∪ ai.safes)).card := by
  have hsub : V \ (ai.passState.mines ∪ ai.passState.safes) ⊆
      V \ (ai.mines ∪ ai.safes) := by
    refine Finset.sdiff_subset_sdiff (Finset.Subset.refl V) ?_
    rw [AI.passState_mines, AI.passState_safes]
    exact Finset.union_subset_union Finset.subset_union_left
      Finset.subset_union_left
  have hwit : ∃ x, x ∈ V \ (ai.mines ∪ ai.safes) ∧
      x ∉ V \ (ai.passState.mines ∪ ai.passState.safes) := by
    rcases hne with hne | hne
    · obtain ⟨x, hx⟩ := Finset.nonempty_iff_ne_empty.mpr hne
      obtain ⟨⟨s, hs, hcell⟩, -⟩ := newMines_mem hx
      obtain ⟨hns, hnm⟩ := newMines_not_classified hInv hx
      refine ⟨x, ?_, ?_⟩
      · rw [Finset.mem_sdiff, Finset.mem_union]
        exact ⟨hV ((ai.mem_cellUniverse x).mpr (Or.inl ⟨s, hs, hcell⟩)),
          fun h => h.elim hnm hns⟩
      · rw [Finset.mem_sdiff]
        push_neg
        intro _
        rw [AI.passState_mines]
        exact Finset.mem_union_left _ (Finset.mem_union_right _ hx)
    · obtain ⟨x, hx⟩ := Finset.nonempty_iff_ne_empty.mpr hne
      obtain ⟨⟨s, hs, hcell⟩, -⟩ := newSafes_mem hx
      obtain ⟨hns, hnm⟩ := newSafes_not_classified hInv hx
      refine ⟨x, ?_, ?_⟩
      · rw [Finset.mem_sdiff, Finset.mem_union]
        exact ⟨hV ((ai.mem_cellUniverse x).mpr (Or.inl ⟨s, hs, hcell⟩)),
          fun h => h.elim hnm hns⟩
      · rw [Finset.mem_sdiff]
        push_neg
        intro _
        rw [AI.passState_safes]
        exact Finset.mem_union_right _ (Finset.mem_union_right _ hx)
  obtain ⟨x, hx1, hx2⟩ := hwit
  refine Finset.card_lt_card ?_
  rw [Finset.ssubset_iff_of_subset hsub]
  exact ⟨x, hx1, hx2⟩

theorem passState_measure_lt {V : Finset Cell} {ai : AI} (hInv : sepInv ai)
    (hV : ai.cellUniverse ⊆ V) (hch : ai.passChanged) :
    ai.passState.loopMeasure V < ai.loopMeasure V := by
  by_cases hM : ai.newMines = ∅ ∧ ai.newSafes = ∅
  · obtain ⟨hM1, hM2⟩ := hM
    have hmk : ai.markStage = ai := markStage_eq_self hM1 hM2
    unfold AI.passChanged at hch
    rw [hmk] at hch
    have hredkb : ai.reduceStage.knowledge =
        ai.knowledge.filter (fun s => decide (s.cells ≠ ∅)) := by
      rw [AI.reduceStage_knowledge,
        list_map_id_of _ _ (fun s hs => reduceSentence_eq_self (hInv s hs))]
    have hPS : ai.passState = ai.reduceStage.inferStage := by
      unfold AI.passState
      rw [hmk]
    have hcuB : ai.reduceStage.cellUniverse ⊆ V := by
      intro x hx
      refine hV ?_
      have hmono := cellUniverse_kept_subset ai
      rw [hmk] at hmono
      exact hmono hx
    have hgcb : ai.reduceStage.goodCount V = ai.goodCount V := by
      unfold AI.goodCount
      rw [hredkb, goodFilter_kept]
    have hgc : ai.passState.goodCount V =
        ai.goodCount V + (subsetInferences ai.reduceStage.knowledge).length := by
      rw [hPS, goodCount_inferStage hcuB, hgcb]
    have hlen : ai.passState.knowledge.length =
        ai.reduceStage.knowledge.length +
          (subsetInferences ai.reduceStage.knowledge).length := by
      rw [hPS, AI.inferStage_knowledge, List.length_append]
    have hkeptlen : ai.reduceStage.knowledge.length ≤ ai.knowledge.length := by
      rw [hredkb]
      exact List.length_filter_le _ _
    have hgcle : ai.passState.goodCount V ≤ sentBound V :=
      goodCount_le_sentBound V _
    have hm1 : ai.passState.mines ∪ ai.passState.safes = ai.mines ∪ ai.safes := by
      rw [AI.passState_mines, AI.passState_safes, hM1, hM2,
        Finset.union_empty, Finset.union_empty]
    have hch2 : ai.reduceStage.knowledge.length < ai.knowledge.length ∨
        subsetInferences ai.reduceStage.knowledge ≠ [] := by
      rcases hch with h | h | h | h
      · exact absurd hM1 h
      · exact absurd hM2 h
      · exact Or.inl h
      · exact Or.inr h
    unfold AI.loopMeasure
    rw [hm1, hgc, hlen]
    rw [hgc] at hgcle
    rcases hch2 with h | h
    · omega
    · have hi : 0 < (subsetInferences ai.reduceStage.knowledge).length :=
        List.length_pos.mpr h
      omega
  · rw [not_and_or] at hM
    have hne : ai.newMines ≠ ∅ ∨ ai.newSafes ≠ ∅ := hM
    have hmu := unclassified_lt hInv hV hne
    have hlen : ai.passState.knowledge.length ≤
        ai.knowledge.length + sentBound V := by
      have hkl : ai.markStage.reduceStage.knowledge.length ≤
          ai.knowledge.length := by
        rw [AI.reduceStage_knowledge]
        refine le_trans (List.length_filter_le _ _) ?_
        rw [List.length_map, AI.markStage_knowledge, List.length_map]
      have hil : (subsetInferences ai.markStage.reduceStage.knowledge).length ≤
          sentBound V :=
        subsetInferences_length_le
          (Finset.Subset.trans (cellUniverse_kept_subset ai) hV)
      unfold AI.passState
      rw [AI.inferStage_knowledge, List.length_append]
      omega
    have hgle : ai.passState.goodCount V ≤ sentBound V :=
      goodCount_le_sentBound V _
    unfold AI.loopMeasure
    have hprod : (3 * sentBound V + 1) *
          (V \ (ai.passState.mines ∪ ai.passState.safes)).card
          + (3 * sentBound V + 1) ≤
        (3 * sentBound V + 1) * (V \ (ai.mines ∪ ai.safes)).card := by
      have h1 : (V \ (ai.passState.mines ∪ ai.passState.safes)).card + 1 ≤
          (V \ (ai.mines ∪ ai.safes)).card := hmu
      calc (3 * sentBound V + 1) *
            (V \ (ai.passState.mines ∪ ai.passState.safes)).card
            + (3 * sentBound V + 1)
          = (3 * sentBound V + 1) *
            ((V \ (ai.passState.mines ∪ ai.passState.safes)).card + 1) := by
            rw [Nat.mul_succ]
        _ ≤ (3 * sentBound V + 1) * (V \ (ai.mines ∪ ai.safes)).card :=
            Nat.mul_le_mul_left _ h1
    omega

/-! ### Loop lemmas -/

theorem loopN_mono {n m : Nat} {ai r : AI} (h : loopN n ai = some r)
    (hnm : n ≤ m) : loopN m ai = some r := by
  induction n generalizing ai m with
  | zero => cases h
  | succ n ih =>
    obtain ⟨m', rfl⟩ : ∃ m', m = m' + 1 := ⟨m - 1, by omega⟩
    rw [loopN] at h ⊢
    by_cases hch : ai.passChanged
    · rw [if_pos hch] at h ⊢
      exact ih h (by omega)
    · rw [if_neg hch] at h ⊢
      exact h

theorem loopN_terminates {V : Finset Cell} :
    ∀ n (ai : AI), sepInv ai → ai.cellUniverse ⊆ V → ai.loopMeasure V < n →
      ∃ r, loopN n ai = some r := by
  intro n
  induction n with
  | zero => intro ai _ _ h; omega
  | succ n ih =>
    intro ai hInv hV hmeas
    rw [loopN]
    by_cases hch : ai.passChanged
    · rw [if_pos hch]
      refine ih ai.passState (sepInv_passState ai)
        (Finset.Subset.trans (cellUniverse_passState_subset ai) hV) ?_
      have := passState_measure_lt hInv hV hch
      omega
    · rw [if_neg hch]
      exact ⟨ai.passState, rfl⟩

theorem loopN_invariant {P : AI → Prop} (hP : ∀ b, P b → P b.passState) :
    ∀ {n : Nat} {ai r : AI}, P ai → loopN n ai = some r → P r := by
  intro n
  induction n with
  | zero => intro ai r _ h; cases h
  | succ n ih =>
    intro ai r hPai h
    rw [loopN] at h
    split at h
    · exact ih (hP ai hPai) h
    · cases h
      exact hP ai hPai

/-- The state returned by the loop is a fixed point: a further pass neither
changes it nor reports a change. -/
theorem loopN_exit {n : Nat} {ai r : AI} (hInv : sepInv ai)
    (h : loopN n ai = some r) : ¬ r.passChanged ∧ r.passState = r := by
  induction n generalizing ai with
  | zero => cases h
  | succ n ih =>
    rw [loopN] at h
    split at h
    · exact ih (sepInv_passState ai) h
    · rename_i hch
      cases h
      have hfix := passState_eq_self hInv hch
      rw [hfix]
      exact ⟨hch, hfix⟩

/-! ### Properties of the observation step and of `add_knowledge` -/

theorem AI.obsState_height (ai : AI) (cell : Cell) (count : Int) :
    (ai.obsState cell count).height = ai.height := by
  simp only [AI.obsState]
  split
  · split <;> rfl
  · rfl

theorem AI.obsState_width (ai : AI) (cell : Cell) (count : Int) :
    (ai.obsState cell count).width = ai.width := by
  simp only [AI.obsState]
  split
  · split <;> rfl
  · rfl

theorem AI.obsState_moves (ai : AI) (cell : Cell) (count : Int) :
    (ai.obsState cell count).moves_made = insert cell ai.moves_made := by
  simp only [AI.obsState]
  split
  · split <;> rfl
  · rfl

theorem AI.obsState_mines (ai : AI) (cell : Cell) (count : Int) :
    (ai.obsState cell count).mines = ai.mines := by
  simp only [AI.obsState]
  split
  · split <;> rfl
  · rfl

theorem AI.obsState_safes (ai : AI) (cell : Cell) (count : Int) :
    (ai.obsState cell count).safes = insert cell ai.safes := by
  simp only [AI.obsState]
  split
  · split <;> rfl
  · rfl

theorem sepInv_obsState {ai : AI} (h : sepInv ai) (cell : Cell) (count : Int) :
    sepInv (ai.obsState cell count) := by
  have hbase : sepInv (AI.mark_safe { ai with moves_made := insert cell ai.moves_made } cell) := by
    refine sepInv_mark_safe ?_ cell
    intro s hs c hc
    exact h s hs c hc
  simp only [AI.obsState]
  split
  · split
    · exact hbase
    · rename_i hne hnotmem
      intro s hs c hc
      rcases List.mem_append.mp hs with hs | hs
      · exact hbase s hs c hc
      · rcases List.mem_singleton.mp hs with rfl
        rw [Finset.mem_filter] at hc
        exact ⟨hc.2.2.1, hc.2.2.2⟩
  · exact hbase

theorem sepInv_of_loopN : ∀ {n : Nat} {ai r : AI},
    loopN n ai = some r → sepInv r := by
  intro n
  induction n with
  | zero => intro ai r h; cases h
  | succ n ih =>
    intro ai r h
    rw [loopN] at h
    split at h
    · exact ih h
    · cases h
      exact sepInv_passState ai

theorem sepInv_add_knowledge {ai r : AI} {cell : Cell} {count : Int}
    (h : ai.add_knowledge cell count = some r) : sepInv r :=
  sepInv_of_loopN h

/-- Under the separation invariant the allotted fuel always suffices: the
fixpoint loop of `add_knowledge` terminates and the call returns a state. -/
theorem add_knowledge_isSome {ai : AI} (hInv : sepInv ai) (cell : Cell)
    (count : Int) : ∃ r, ai.add_knowledge cell count = some r := by
  unfold AI.add_knowledge
  exact loopN_terminates _ _ (sepInv_obsState hInv cell count)
    (Finset.Subset.refl _) (Nat.lt_succ_self _)

theorem Reachable_sepInv {ai : AI} (h : Reachable ai) : sepInv ai := by
  induction h with
  | init h w => exact sepInv_init h w
  | mark_mine c _ ih => exact sepInv_mark_mine ih c
  | mark_safe c _ ih => exact sepInv_mark_safe ih c
  | add_obs c k _ hsome _ => exact sepInv_add_knowledge hsome

theorem movesSub_init (h w : Nat) : movesSub (AI.init h w) := by
  intro c hc
  cases hc

theorem movesSub_mark_mine {ai : AI} (h : movesSub ai) (c : Cell) :
    movesSub (ai.mark_mine c) := h

theorem movesSub_mark_safe {ai : AI} (h : movesSub ai) (c : Cell) :
    movesSub (ai.mark_safe c) := by
  intro x hx
  exact Finset.mem_insert_of_mem (h hx)

theorem movesSub_obsState {ai : AI} (h : movesSub ai) (cell : Cell)
    (count : Int) : movesSub (ai.obsState cell count) := by
  intro x hx
  rw [AI.obsState_moves] at hx
  rw [AI.obsState_safes]
  rcases Finset.mem_insert.mp hx with rfl | hx
  · exact Finset.mem_insert_self x _
  · exact Finset.mem_insert_of_mem (h hx)

theorem movesSub_add_knowledge {ai r : AI} {cell : Cell} {count : Int}
    (h : movesSub ai) (hsome : ai.add_knowledge cell count = some r) :
    movesSub r := by
  unfold AI.add_knowledge at hsome
  exact loopN_invariant (fun b hb => movesSub_passState hb)
    (movesSub_obsState h cell count) hsome

theorem Reachable_movesSub {ai : AI} (h : Reachable ai) : movesSub ai := by
  induction h with
  | init h w => exact movesSub_init h w
  | mark_mine c _ ih => exact movesSub_mark_mine ih c
  | mark_safe c _ ih => exact movesSub_mark_safe ih c
  | add_obs c k _ hsome ih => exact movesSub_add_knowledge ih hsome

/-! ### Claim theorems (first batch) -/

/-- Claim C2: on every reachable engine state, for every call
`add_observation(cell, count)`, the fixpoint loop inside `add_knowledge`
terminates after finitely many passes (the allotted fuel, which strictly
bounds the decreasing loop measure, always suffices), so the call returns a
state. -/
theorem add_observation_terminates {ai : AI} (h : Reachable ai) (cell : Cell)
    (count : Int) : (ai.add_knowledge cell count).isSome = true := by
  obtain ⟨r, hr⟩ := add_knowledge_isSome (Reachable_sepInv h) cell count
  rw [hr]
  rfl

theorem add_observation_terminates_witness :
    ((AI.init 2 2).add_knowledge (0, 0) 0).isSome = true :=
  add_observation_terminates (Reachable.init 2 2) (0, 0) 0

/-- Claim C7: `known_mines()` returns the full cell set exactly under
`count > 0` and `count = |cells|` and otherwise the empty set;
`known_safes()` returns the full cell set exactly under `count = 0` and
`|cells| > 0` and otherwise the empty set; both are embedded as pure
functions of the sentence, mirroring that the source methods read the fields
and mutate nothing.  The listed concrete cases instantiate the claim's
examples on `cells = {A, B}`. -/
theorem known_queries_spec :
    (∀ s : Sentence,
      (0 < s.count ∧ s.count = (s.cells.card : Int) → s.known_mines = s.cells) ∧
      (¬ (0 < s.count ∧ s.count = (s.cells.card : Int)) → s.known_mines = ∅) ∧
      (s.count = 0 ∧ 0 < s.cells.card → s.known_safes = s.cells) ∧
      (¬ (s.count = 0 ∧ 0 < s.cells.card) → s.known_safes = ∅)) ∧
    (Sentence.mk {(0, 0), (0, 1)} 2).known_mines = {(0, 0), (0, 1)} ∧
    (Sentence.mk {(0, 0), (0, 1)} 0).known_safes = {(0, 0), (0, 1)} ∧
    (Sentence.mk {(0, 0), (0, 1)} 1).known_mines = ∅ ∧
    (Sentence.mk {(0, 0), (0, 1)} 1).known_safes = ∅ := by
  refine ⟨?_, by decide, by decide, by decide, by decide⟩
  intro s
  refine ⟨?_, ?_, ?_, ?_⟩
  · rintro ⟨h1, h2⟩
    unfold Sentence.known_mines
    rw [if_pos ⟨h2.symm, h1⟩]
  · intro h
    unfold Sentence.known_mines
    rw [if_neg]
    rintro ⟨a, b⟩
    exact h ⟨b, a.symm⟩
  · rintro ⟨h1, h2⟩
    unfold Sentence.known_safes
    rw [if_pos ⟨h1, h2⟩]
  · intro h
    unfold Sentence.known_safes
    rw [if_neg h]

theorem known_queries_spec_witness :
    (Sentence.mk {(0, 0), (0, 1)} 2).known_mines = {(0, 0), (0, 1)} :=
  ((known_queries_spec.1 (Sentence.mk {(0, 0), (0, 1)} 2)).1) (by decide)

/-- Claim C8: engine-level `mark_mine(X)` adds `X` to `mines` and replaces
every sentence by its `mark_mine X` image, which removes `X` and decrements
the count by exactly one when `X` was a member and is the identity otherwise;
engine-level `mark_safe(X)` adds `X` to `safes` and removes `X` from member
sentences with count unchanged. -/
theorem mark_propagation_spec :
    ∀ (ai : AI) (X : Cell),
      (X ∈ (ai.mark_mine X).mines ∧
        (ai.mark_mine X).knowledge = ai.knowledge.map (fun s => s.mark_mine X) ∧
        X ∈ (ai.mark_safe X).safes ∧
        (ai.mark_safe X).knowledge = ai.knowledge.map (fun s => s.mark_safe X)) ∧
      ∀ s : Sentence,
        (X ∈ s.cells →
          (s.mark_mine X).cells = s.cells.erase X ∧
          (s.mark_mine X).count = s.count - 1 ∧
          (s.mark_safe X).cells = s.cells.erase X ∧
          (s.mark_safe X).count = s.count) ∧
        (X ∉ s.cells → s.mark_mine X = s ∧ s.mark_safe X = s) := by
  intro ai X
  constructor
  · exact ⟨Finset.mem_insert_self X ai.mines, rfl,
      Finset.mem_insert_self X ai.safes, rfl⟩
  · intro s
    constructor
    · intro hX
      unfold Sentence.mark_mine Sentence.mark_safe
      rw [if_pos hX, if_pos hX]
      exact ⟨rfl, rfl, rfl, rfl⟩
    · intro hX
      unfold Sentence.mark_mine Sentence.mark_safe
      rw [if_neg hX, if_neg hX]
      exact ⟨rfl, rfl⟩

theorem mark_propagation_spec_witness :
    ((Sentence.mk {(0, 0), (0, 1)} 1).mark_mine (0, 0)).cells =
        ({(0, 0), (0, 1)} : Finset Cell).erase (0, 0) ∧
      ((Sentence.mk {(0, 0), (0, 1)} 1).mark_mine (0, 0)).count = 1 - 1 ∧
      ((Sentence.mk {(0, 0), (0, 1)} 1).mark_safe (0, 0)).cells =
        ({(0, 0), (0, 1)} : Finset Cell).erase (0, 0) ∧
      ((Sentence.mk {(0, 0), (0, 1)} 1).mark_safe (0, 0)).count = 1 :=
  ((mark_propagation_spec (AI.init 2 2) (0, 0)).2
    (Sentence.mk {(0, 0), (0, 1)} 1)).1 (by decide)

/-- Claim C10: `make_safe_move` returns some cell of `safes` not yet in
`moves_made` whenever such a cell exists, returns `none` exactly when no such
cell exists, and is a pure function of the state (the source method only
reads `safes` and `moves_made`). -/
theorem make_safe_move_spec (ai : AI) :
    (∀ c : Cell, ai.make_safe_move = some c →
      c ∈ ai.safes ∧ c ∉ ai.moves_made) ∧
    ((ai.safes \ ai.moves_made).Nonempty →
      ∃ c, ai.make_safe_move = some c ∧ c ∈ ai.safes ∧ c ∉ ai.moves_made) ∧
    (ai.make_safe_move = none ↔ ai.safes \ ai.moves_made = ∅) := by
  unfold AI.make_safe_move
  by_cases hne : (ai.safes \ ai.moves_made).Nonempty
  · simp only [dif_pos hne]
    have hmem := Finset.min'_mem
      ((ai.safes \ ai.moves_made).image fun c => Nat.pair c.1 c.2) (hne.image _)
    rw [Finset.mem_image] at hmem
    obtain ⟨c0, hc0, hpair⟩ := hmem
    have hval : Nat.unpair
        (((ai.safes \ ai.moves_made).image fun c => Nat.pair c.1 c.2).min'
          (hne.image _)) = c0 := by
      rw [← hpair, Nat.unpair_pair]
    rw [Finset.mem_sdiff] at hc0
    refine ⟨?_, ?_, ?_⟩
    · intro c hc
      rw [Option.some_inj] at hc
      rw [← hc, hval]
      exact hc0
    · intro _
      refine ⟨c0, ⟨?_, ⟨hc0.1, hc0.2⟩⟩⟩
      rw [hval]
    · constructor
      · intro habs
        cases habs
      · intro hempty
        rw [hempty] at hne
        exact absurd rfl (Finset.nonempty_iff_ne_empty.mp hne)
  · simp only [dif_neg hne]
    refine ⟨?_, ?_, ?_⟩
    · intro c hc
      cases hc
    · intro h
      exact absurd h hne
    · constructor
      · intro _
        exact Finset.not_nonempty_iff_eq_empty.mp hne
      · intro _
        trivial

theorem make_safe_move_spec_witness :
    (0, 1) ∈ (AI.mk 2 2 {(0, 0)} ∅ {(0, 0), (0, 1)} []).safes ∧
      (0, 1) ∉ (AI.mk 2 2 {(0, 0)} ∅ {(0, 0), (0, 1)} []).moves_made :=
  (make_safe_move_spec (AI.mk 2 2 {(0, 0)} ∅ {(0, 0), (0, 1)} [])).1
    (0, 1) (by decide)

/-- Claim C1: for every ordered pair of distinct constraints `(A, B)` in the
knowledge base with `A.cells` a strict subset of `B.cells`, the
subset-inference scan of the fixpoint loop derives
`⟨B.cells \ A.cells, B.count - A.count⟩` and adds it exactly when its count
lies in `[0, |cells|]` and no structurally equal constraint is already in the
collection (membership in the scan's output also absorbs the guard against
re-deriving it in the same pass; the non-emptiness guard holds automatically
for a strict subset).  In particular, from `{A,B,C}=1` and `{A,B}=1` the scan
derives `{C}=0`, and the fixpoint loop run on that knowledge base marks `C`
safe. -/
theorem subset_inference_spec :
    (∀ (K : List Sentence) (A B : Sentence), A ∈ K → B ∈ K →
      A.cells ⊂ B.cells →
      ((⟨B.cells \ A.cells, B.count - A.count⟩ : Sentence) ∈
          subsetInferences K ↔
        0 ≤ B.count - A.count ∧
          B.count - A.count ≤ ((B.cells \ A.cells).card : Int) ∧
          (⟨B.cells \ A.cells, B.count - A.count⟩ : Sentence) ∉ K)) ∧
    subsetInferences [⟨{(0, 0), (0, 1), (0, 2)}, 1⟩, ⟨{(0, 0), (0, 1)}, 1⟩] =
      [⟨{(0, 2)}, 0⟩] ∧
    (loopN 10 (AI.mk 1 3 ∅ ∅ ∅
        [⟨{(0, 0), (0, 1), (0, 2)}, 1⟩, ⟨{(0, 0), (0, 1)}, 1⟩])).map
      (fun a => decide ((0, 2) ∈ a.safes)) = some true := by
  refine ⟨?_, by decide, by decide⟩
  intro K A B hA hB hAB
  obtain ⟨hsub, hne⟩ := Finset.ssubset_iff_subset_ne.mp hAB
  have hpos : 0 < (B.cells \ A.cells).card := by
    rw [Finset.card_pos, Finset.sdiff_nonempty]
    intro hBA
    exact hne (Finset.Subset.antisymm hsub hBA)
  constructor
  · intro hmem
    obtain ⟨s1, hs1, s2, hs2, hd⟩ := subsetInferences_spec hmem
    obtain ⟨-, -, -, -, h0, hle, hnK⟩ := hd
    exact ⟨h0, hle, hnK⟩
  · rintro ⟨h0, hle, hnK⟩
    exact subsetInferences_complete hA hB ⟨hsub, hne, rfl, hpos, h0, hle, hnK⟩

theorem subset_inference_spec_witness :
    ((⟨(Sentence.mk {(0, 0), (0, 1), (0, 2)} 1).cells \
        (Sentence.mk {(0, 0), (0, 1)} 1).cells,
        (Sentence.mk {(0, 0), (0, 1), (0, 2)} 1).count -
          (Sentence.mk {(0, 0), (0, 1)} 1).count⟩ : Sentence) ∈
        subsetInferences
          [⟨{(0, 0), (0, 1), (0, 2)}, 1⟩, ⟨{(0, 0), (0, 1)}, 1⟩] ↔
      0 ≤ (Sentence.mk {(0, 0), (0, 1), (0, 2)} 1).count -
          (Sentence.mk {(0, 0), (0, 1)} 1).count ∧
        (Sentence.mk {(0, 0), (0, 1), (0, 2)} 1).count -
            (Sentence.mk {(0, 0), (0, 1)} 1).count ≤
          (((Sentence.mk {(0, 0), (0, 1), (0, 2)} 1).cells \
            (Sentence.mk {(0, 0), (0, 1)} 1).cells).card : Int) ∧
        (⟨(Sentence.mk {(0, 0), (0, 1), (0, 2)} 1).cells \
            (Sentence.mk {(0, 0), (0, 1)} 1).cells,
          (Sentence.mk {(0, 0), (0, 1), (0, 2)} 1).count -
            (Sentence.mk {(0, 0), (0, 1)} 1).count⟩ : Sentence) ∉
          [⟨{(0, 0), (0, 1), (0, 2)}, 1⟩, ⟨{(0, 0), (0, 1)}, 1⟩]) :=
  subset_inference_spec.1
    [⟨{(0, 0), (0, 1), (0, 2)}, 1⟩, ⟨{(0, 0), (0, 1)}, 1⟩]
    (Sentence.mk {(0, 0), (0, 1)} 1)
    (Sentence.mk {(0, 0), (0, 1), (0, 2)} 1)
    (by decide) (by decide) (by decide)

/-- Claim C5 counterexample: the pruning step of one pass silently drops a
constraint whose cell set is empty but whose count is `1` (it falls through
both branches of the `if len > 0 / elif len == 0 and count == 0` statement
and is not appended to the rebuilt collection), contradicting the claim that
a constraint with empty cells and non-zero count is never silently dropped. -/
theorem empty_nonzero_dropped_counterexample :
    (⟨(∅ : Finset Cell), 1⟩ : Sentence) ∈
        (AI.mk 1 1 ∅ ∅ ∅ [⟨∅, 1⟩]).knowledge ∧
      (AI.mk 1 1 ∅ ∅ ∅ [⟨(∅ : Finset Cell), 1⟩]).passState.knowledge = [] := by
  decide

/-- Claim C5 (amended): the pruning step discards every constraint whose cell
set is empty, regardless of its count — after one pass of the fixpoint loop no
constraint with an empty cell set remains in the collection (so an empty
constraint with non-zero count is silently dropped rather than kept or
surfaced as an error). -/
theorem pass_prunes_every_empty_constraint (ai : AI) :
    ∀ s ∈ ai.passState.knowledge, s.cells ≠ ∅ := by
  intro s hs
  unfold AI.passState at hs
  rw [AI.inferStage_knowledge] at hs
  rcases List.mem_append.mp hs with hs | hs
  · rw [AI.reduceStage_knowledge, List.mem_filter] at hs
    exact of_decide_eq_true hs.2
  · obtain ⟨s1, hs1, s2, hs2, hd⟩ := subsetInferences_spec hs
    obtain ⟨-, -, -, hpos, -⟩ := hd
    exact Finset.nonempty_iff_ne_empty.mp (Finset.card_pos.mp hpos)

theorem pass_prunes_every_empty_constraint_witness :
    (Sentence.mk {(0, 0), (0, 1)} 1).cells ≠ ∅ :=
  pass_prunes_every_empty_constraint
    (AI.mk 1 2 ∅ ∅ ∅ [⟨{(0, 0), (0, 1)}, 1⟩])
    (Sentence.mk {(0, 0), (0, 1)} 1) (by decide)

/-- Claim C6 counterexample: a concrete sequence of three `add_knowledge`
calls on a fresh 2 x 5 engine (observation counts consistent with a single
mine at `(1,1)`) returns a state whose constraint collection contains two
structurally equal constraints — in-place reduction of two different
constraints produced the same sentence twice, and nothing removes the
duplicate before returning. -/
theorem duplicate_constraints_counterexample :
    ((((AI.init 2 5).add_knowledge (0, 0) 1).bind
        (fun a => a.add_knowledge (0, 2) 1)).bind
        (fun a => a.add_knowledge (1, 0) 1)).map
      (fun a => decide (¬ a.knowledge.Nodup)) = some true := by
  decide

/-- Claim C6 (amended): the dedup guards do hold at every point where a
constraint is added — the subset-inference scan emits pairwise structurally
distinct constraints none of which is already in the collection (and the
observation step inserts its sentence only if not already present) — but
in-place reduction of existing constraints can leave two structurally equal
constraints in the collection when `add_observation` returns. -/
theorem inference_emits_no_duplicates (K : List Sentence) :
    (subsetInferences K).Nodup ∧ ∀ d ∈ subsetInferences K, d ∉ K :=
  subsetInferences_nodup K

theorem inference_emits_no_duplicates_witness :
    (⟨{(0, 2)}, 0⟩ : Sentence) ∉
      [(⟨{(0, 0), (0, 1), (0, 2)}, 1⟩ : Sentence), ⟨{(0, 0), (0, 1)}, 1⟩] :=
  (inference_emits_no_duplicates
    [⟨{(0, 0), (0, 1), (0, 2)}, 1⟩, ⟨{(0, 0), (0, 1)}, 1⟩]).2
    ⟨{(0, 2)}, 0⟩ (by decide)

/-- Claim C4 counterexample: with unrestricted public calls, a cell marked
safe is afterwards added to `mines` by a later `mark_mine` call on the same
cell — the engine performs no cross-check, so the no-crossing half of the
claim fails for arbitrary call sequences (it holds under the collaborator
contract, see the amended theorem). -/
theorem safe_then_mine_counterexample :
    (0, 0) ∈ ((AI.init 2 2).mark_safe (0, 0)).safes ∧
      (0, 0) ∈ (((AI.init 2 2).mark_safe (0, 0)).mark_mine (0, 0)).mines := by
  decide

/-! ### Soundness under the collaborator contract -/

/-- A sentence is true of the actual mine placement `M` when its count is
exactly the number of its cells that are mines. -/
def sentenceTrue (M : Finset Cell) (s : Sentence) : Prop :=
  s.count = ((s.cells ∩ M).card : Int)

/-- Semantic soundness of a whole engine state with respect to the actual
placement `M`: every sentence is true, every proven mine is an actual mine,
and no proven safe is an actual mine. -/
def soundState (M : Finset Cell) (ai : AI) : Prop :=
  (∀ s ∈ ai.knowledge, sentenceTrue M s) ∧ ai.mines ⊆ M ∧
    ∀ c ∈ ai.safes, c ∉ M

theorem sentenceTrue_mark_mine {M : Finset Cell} {s : Sentence} {c : Cell}
    (hc : c ∈ M) (h : sentenceTrue M s) : sentenceTrue M (s.mark_mine c) := by
  unfold Sentence.mark_mine
  by_cases hmem : c ∈ s.cells
  · rw [if_pos hmem]
    unfold sentenceTrue at h ⊢
    dsimp only
    rw [Finset.erase_inter,
      Finset.card_erase_of_mem (Finset.mem_inter.mpr ⟨hmem, hc⟩)]
    have hpos : 0 < (s.cells ∩ M).card :=
      Finset.card_pos.mpr ⟨c, Finset.mem_inter.mpr ⟨hmem, hc⟩⟩
    omega
  · rw [if_neg hmem]
    exact h

theorem sentenceTrue_mark_safe {M : Finset Cell} {s : Sentence} {c : Cell}
    (hc : c ∉ M) (h : sentenceTrue M s) : sentenceTrue M (s.mark_safe c) := by
  unfold Sentence.mark_safe
  by_cases hmem : c ∈ s.cells
  · rw [if_pos hmem]
    unfold sentenceTrue at h ⊢
    dsimp only
    rw [Finset.erase_inter,
      Finset.erase_eq_of_not_mem (fun h2 => hc (Finset.mem_inter.mp h2).2)]
    exact h
  · rw [if_neg hmem]
    exact h

theorem sentenceTrue_markMines {M Ms : Finset Cell} {s : Sentence}
    (hsub : Ms ⊆ M) (h : sentenceTrue M s) :
    sentenceTrue M (s.markMines Ms) := by
  unfold Sentence.markMines
  unfold sentenceTrue at h ⊢
  dsimp only
  have hset : (s.cells \ Ms) ∩ M = (s.cells ∩ M) \ Ms := by
    ext x
    simp only [Finset.mem_inter, Finset.mem_sdiff]
    tauto
  have hset2 : (s.cells ∩ M) ∩ Ms = s.cells ∩ Ms := by
    ext x
    simp only [Finset.mem_inter]
    constructor
    · rintro ⟨⟨h1, -⟩, h3⟩
      exact ⟨h1, h3⟩
    · rintro ⟨h1, h3⟩
      exact ⟨⟨h1, hsub h3⟩, h3⟩
  have hcard := Finset.card_inter_add_card_sdiff (s.cells ∩ M) Ms
  rw [hset2] at hcard
  rw [hset, h]
  omega

theorem sentenceTrue_markSafes {M S : Finset Cell} {s : Sentence}
    (hdis : ∀ c ∈ S, c ∉ M) (h : sentenceTrue M s) :
    sentenceTrue M (s.markSafes S) := by
  unfold Sentence.markSafes
  unfold sentenceTrue at h ⊢
  dsimp only
  have hset : (s.cells \ S) ∩ M = s.cells ∩ M := by
    ext x
    simp only [Finset.mem_inter, Finset.mem_sdiff]
    constructor
    · rintro ⟨⟨h1, -⟩, h3⟩
      exact ⟨h1, h3⟩
    · rintro ⟨h1, h3⟩
      exact ⟨⟨h1, fun hS => hdis x hS h3⟩, h3⟩
  rw [hset]
  exact h

theorem sentenceTrue_reduce {M safes mines : Finset Cell} {s : Sentence}
    (hmines : mines ⊆ M) (hsafes : ∀ c ∈ safes, c ∉ M)
    (h : sentenceTrue M s) : sentenceTrue M (reduceSentence safes mines s) := by
  unfold reduceSentence
  unfold sentenceTrue at h ⊢
  dsimp only
  have hfilter : (s.cells.filter fun c => c ∉ safes ∧ c ∈ mines) =
      s.cells ∩ mines := by
    ext x
    simp only [Finset.mem_filter, Finset.mem_inter]
    constructor
    · rintro ⟨h1, -, h3⟩
      exact ⟨h1, h3⟩
    · rintro ⟨h1, h3⟩
      exact ⟨h1, fun hS => hsafes x hS (hmines h3), h3⟩
  have hset : (s.cells \ (safes ∪ mines)) ∩ M = (s.cells ∩ M) \ mines := by
    ext x
    simp only [Finset.mem_inter, Finset.mem_sdiff, Finset.mem_union]
    constructor
    · rintro ⟨⟨h1, h2⟩, h3⟩
      exact ⟨⟨h1, h3⟩, fun hm => h2 (Or.inr hm)⟩
    · rintro ⟨⟨h1, h3⟩, h2⟩
      refine ⟨⟨h1, ?_⟩, h3⟩
      rintro (hs2 | hm2)
      · exact hsafes x hs2 h3
      · exact h2 hm2
  have hset2 : (s.cells ∩ M) ∩ mines = s.cells ∩ mines := by
    ext x
    simp only [Finset.mem_inter]
    constructor
    · rintro ⟨⟨h1, -⟩, h3⟩
      exact ⟨h1, h3⟩
    · rintro ⟨h1, h3⟩
      exact ⟨⟨h1, hmines h3⟩, h3⟩
  have hcard := Finset.card_inter_add_card_sdiff (s.cells ∩ M) mines
  rw [hset2] at hcard
  rw [hfilter, hset, h]
  omega

theorem known_mines_actual {M : Finset Cell} {s : Sentence}
    (h : sentenceTrue M s) : ∀ x ∈ s.known_mines, x ∈ M := by
  intro x hx
  unfold Sentence.known_mines at hx
  split at hx
  · rename_i hcond
    have hcards : ((s.cells.card : Int)) = ((s.cells ∩ M).card : Int) := by
      rw [hcond.1, h]
    have hcards2 : s.cells.card ≤ (s.cells ∩ M).card := by omega
    have hsub : s.cells ∩ M = s.cells :=
      Finset.eq_of_subset_of_card_le Finset.inter_subset_left hcards2
    rw [← hsub] at hx
    exact (Finset.mem_inter.mp hx).2
  · exact absurd hx (Finset.not_mem_empty x)

theorem known_safes_actual {M : Finset Cell} {s : Sentence}
    (h : sentenceTrue M s) : ∀ x ∈ s.known_safes, x ∉ M := by
  intro x hx
  unfold Sentence.known_safes at hx
  split at hx
  · rename_i hcond
    intro hxM
    have hzero : ((s.cells ∩ M).card : Int) = 0 := by
      rw [← h, hcond.1]
    have : x ∈ s.cells ∩ M := Finset.mem_inter.mpr ⟨hx, hxM⟩
    have hpos : 0 < (s.cells ∩ M).card := Finset.card_pos.mpr ⟨x, this⟩
    omega
  · exact absurd hx (Finset.not_mem_empty x)

theorem soundState_newMines {M : Finset Cell} {ai : AI} (h : soundState M ai) :
    ∀ x ∈ ai.newMines, x ∈ M := by
  intro x hx
  unfold AI.newMines at hx
  rw [Finset.mem_sdiff, AI.mem_extractMines] at hx
  obtain ⟨⟨s, hs, hxs⟩, -⟩ := hx
  exact known_mines_actual (h.1 s hs) x hxs

theorem soundState_newSafes {M : Finset Cell} {ai : AI} (h : soundState M ai) :
    ∀ x ∈ ai.newSafes, x ∉ M := by
  intro x hx
  unfold AI.newSafes at hx
  rw [Finset.mem_sdiff, AI.mem_extractSafes] at hx
  obtain ⟨⟨s, hs, hxs⟩, -⟩ := hx
  exact known_safes_actual (h.1 s hs) x hxs

theorem soundState_markStage {M : Finset Cell} {ai : AI}
    (h : soundState M ai) : soundState M ai.markStage := by
  obtain ⟨hknow, hmines, hsafes⟩ := h
  refine ⟨?_, ?_, ?_⟩
  · intro s hs
    rw [AI.markStage_knowledge, List.mem_map] at hs
    obtain ⟨s0, hs0, rfl⟩ := hs
    exact sentenceTrue_markSafes (soundState_newSafes ⟨hknow, hmines, hsafes⟩)
      (sentenceTrue_markMines
        (fun x hx => soundState_newMines ⟨hknow, hmines, hsafes⟩ x hx)
        (hknow s0 hs0))
  · rw [AI.markStage_mines]
    exact Finset.union_subset hmines
      (fun x hx => soundState_newMines ⟨hknow, hmines, hsafes⟩ x hx)
  · rw [AI.markStage_safes]
    intro c hc
    rcases Finset.mem_union.mp hc with hc | hc
    · exact hsafes c hc
    · exact soundState_newSafes ⟨hknow, hmines, hsafes⟩ c hc

theorem soundState_reduceStage {M : Finset Cell} {ai : AI}
    (h : soundState M ai) : soundState M ai.reduceStage := by
  refine ⟨?_, h.2.1, h.2.2⟩
  intro s hs
  rw [AI.reduceStage_knowledge, List.mem_filter] at hs
  obtain ⟨hs, -⟩ := hs
  rw [List.mem_map] at hs
  obtain ⟨s0, hs0, rfl⟩ := hs
  exact sentenceTrue_reduce h.2.1 h.2.2 (h.1 s0 hs0)

theorem soundState_inferStage {M : Finset Cell} {ai : AI}
    (h : soundState M ai) : soundState M ai.inferStage := by
  refine ⟨?_, h.2.1, h.2.2⟩
  intro s hs
  rw [AI.inferStage_knowledge] at hs
  rcases List.mem_append.mp hs with hs | hs
  · exact h.1 s hs
  · obtain ⟨s1, hs1, s2, hs2, hd⟩ := subsetInferences_spec hs
    obtain ⟨hsub, -, hx, -⟩ := hd
    subst hx
    have h1 := h.1 s1 hs1
    have h2 := h.1 s2 hs2
    unfold sentenceTrue at h1 h2 ⊢
    dsimp only
    have hset : (s2.cells \ s1.cells) ∩ M =
        (s2.cells ∩ M) \ (s1.cells ∩ M) := by
      ext x
      simp only [Finset.mem_inter, Finset.mem_sdiff]
      constructor
      · rintro ⟨⟨ha, hb⟩, hc⟩
        exact ⟨⟨ha, hc⟩, fun hcon => hb hcon.1⟩
      · rintro ⟨⟨ha, hc⟩, hb⟩
        exact ⟨⟨ha, fun h1c => hb ⟨h1c, hc⟩⟩, hc⟩
    have hsub2 : s1.cells ∩ M ⊆ s2.cells ∩ M := fun x hx =>
      Finset.mem_inter.mpr ⟨hsub (Finset.mem_inter.mp hx).1,
        (Finset.mem_inter.mp hx).2⟩
    have hcard := Finset.card_sdiff_add_card_eq_card hsub2
    rw [hset, h1, h2]
    omega

theorem soundState_passState {M : Finset Cell} {ai : AI}
    (h : soundState M ai) : soundState M ai.passState :=
  soundState_inferStage (soundState_reduceStage (soundState_markStage h))

theorem soundState_mark_mine {M : Finset Cell} {ai : AI} {c : Cell}
    (hc : c ∈ M) (h : soundState M ai) : soundState M (ai.mark_mine c) := by
  refine ⟨?_, ?_, ?_⟩
  · intro s hs
    unfold AI.mark_mine at hs
    rw [List.mem_map] at hs
    obtain ⟨s0, hs0, rfl⟩ := hs
    exact sentenceTrue_mark_mine hc (h.1 s0 hs0)
  · show insert c ai.mines ⊆ M
    exact Finset.insert_subset_iff.mpr ⟨hc, h.2.1⟩
  · exact h.2.2

theorem soundState_mark_safe {M : Finset Cell} {ai : AI} {c : Cell}
    (hc : c ∉ M) (h : soundState M ai) : soundState M (ai.mark_safe c) := by
  refine ⟨?_, h.2.1, ?_⟩
  · intro s hs
    unfold AI.mark_safe at hs
    rw [List.mem_map] at hs
    obtain ⟨s0, hs0, rfl⟩ := hs
    exact sentenceTrue_mark_safe hc (h.1 s0 hs0)
  · show ∀ x ∈ insert c ai.safes, x ∉ M
    intro x hx
    rcases Finset.mem_insert.mp hx with rfl | hx
    · exact hc
    · exact h.2.2 x hx

/-- Truth of the observation sentence built by `add_knowledge` when the
reported count is the actual number of mines among the in-bounds
neighbours. -/
theorem sentenceTrue_obs {M moves safes mines adj : Finset Cell} {cell : Cell}
    (hmines : mines ⊆ M) (hsafes : ∀ c ∈ safes, c ∉ M) (hmv : moves ⊆ safes)
    (hcell : cell ∉ M) :
    sentenceTrue M
      ⟨adj.filter (fun c => c ∉ insert cell moves ∧ c ∉ insert cell safes ∧
          c ∉ mines),
        ((adj ∩ M).card : Int) - ((adj.filter fun c => c ∈ mines).card : Int)⟩ := by
  unfold sentenceTrue
  dsimp only
  have hset : (adj.filter (fun c => c ∉ insert cell moves ∧
      c ∉ insert cell safes ∧ c ∉ mines)) ∩ M = (adj ∩ M) \ mines := by
    ext x
    simp only [Finset.mem_inter, Finset.mem_filter, Finset.mem_sdiff,
      Finset.mem_insert]
    constructor
    · rintro ⟨⟨hadj, -, -, hmi⟩, hM⟩
      exact ⟨⟨hadj, hM⟩, hmi⟩
    · rintro ⟨⟨hadj, hM⟩, hmi⟩
      refine ⟨⟨hadj, ?_, ?_, hmi⟩, hM⟩
      · rintro (rfl | hm2)
        · exact hcell hM
        · exact hsafes x (hmv hm2) hM
      · rintro (rfl | hs2)
        · exact hcell hM
        · exact hsafes x hs2 hM
  have hfil : (adj.filter fun c => c ∈ mines) = adj ∩ mines :=
    Finset.filter_mem_eq_inter
  have hset2 : (adj ∩ M) ∩ mines = adj ∩ mines := by
    ext x
    simp only [Finset.mem_inter]
    constructor
    · rintro ⟨⟨h1, -⟩, h3⟩
      exact ⟨h1, h3⟩
    · rintro ⟨h1, h3⟩
      exact ⟨⟨h1, hmines h3⟩, h3⟩
  have hcard := Finset.card_inter_add_card_sdiff (adj ∩ M) mines
  rw [hset2] at hcard
  rw [hset, hfil]
  omega

theorem soundState_obsState {M : Finset Cell} {ai : AI} {cell : Cell}
    (h : soundState M ai) (hmv : movesSub ai) (hcell : cell ∉ M) :
    soundState M (ai.obsState cell
      (((adjCells ai.height ai.width cell ∩ M).card : Int))) := by
  have h1 : soundState M
      (AI.mark_safe { ai with moves_made := insert cell ai.moves_made } cell) :=
    soundState_mark_safe hcell ⟨h.1, h.2.1, h.2.2⟩
  simp only [AI.obsState]
  split
  · split
    · exact h1
    · refine ⟨?_, h1.2.1, h1.2.2⟩
      intro s hs
      rcases List.mem_append.mp hs with hs | hs
      · exact h1.1 s hs
      · rcases List.mem_singleton.mp hs with rfl
        exact sentenceTrue_obs h.2.1 h.2.2 hmv hcell
  · exact h1

theorem soundState_add_knowledge {M : Finset Cell} {ai r : AI} {cell : Cell}
    (h : soundState M ai) (hmv : movesSub ai) (hcell : cell ∉ M)
    (hsome : ai.add_knowledge cell
      (((adjCells ai.height ai.width cell ∩ M).card : Int)) = some r) :
    soundState M r := by
  unfold AI.add_knowledge at hsome
  exact loopN_invariant (fun b hb => soundState_passState hb)
    (soundState_obsState h hmv hcell) hsome

theorem ContractReach_toReachable {M : Finset Cell} {h w : Nat} {ai : AI}
    (hr : ContractReach M h w ai) : Reachable ai := by
  induction hr with
  | init => exact Reachable.init h w
  | mark_mine _ _ ih => exact Reachable.mark_mine _ ih
  | mark_safe _ _ ih => exact Reachable.mark_safe _ ih
  | add_obs _ _ hsome ih => exact Reachable.add_obs _ _ ih hsome

theorem add_knowledge_dims {ai r : AI} {cell : Cell} {count : Int}
    (h : ai.add_knowledge cell count = some r) :
    r.height = ai.height ∧ r.width = ai.width := by
  unfold AI.add_knowledge at h
  refine loopN_invariant (P := fun b => b.height = ai.height ∧ b.width = ai.width)
    (fun b hb => ?_) ⟨ai.obsState_height cell count, ai.obsState_width cell count⟩ h
  show b.passState.height = ai.height ∧ b.passState.width = ai.width
  rw [AI.passState_height, AI.passState_width]
  exact hb

theorem ContractReach_dims {M : Finset Cell} {h w : Nat} {ai : AI}
    (hr : ContractReach M h w ai) : ai.height = h ∧ ai.width = w := by
  induction hr with
  | init => exact ⟨rfl, rfl⟩
  | mark_mine _ _ ih => exact ih
  | mark_safe _ _ ih => exact ih
  | add_obs _ _ hsome ih =>
    obtain ⟨h1, h2⟩ := add_knowledge_dims hsome
    rw [h1, h2]
    exact ih

theorem ContractReach_sound {M : Finset Cell} {h w : Nat} {ai : AI}
    (hr : ContractReach M h w ai) : soundState M ai := by
  induction hr with
  | init =>
    exact ⟨fun s hs => absurd hs (List.not_mem_nil s),
      Finset.empty_subset M, fun c hc => absurd hc (Finset.not_mem_empty c)⟩
  | mark_mine hcM _ ih => exact soundState_mark_mine hcM ih
  | mark_safe hcM _ ih => exact soundState_mark_safe hcM ih
  | add_obs hcM hr0 hsome ih =>
    obtain ⟨hh, hw⟩ := ContractReach_dims hr0
    rw [← hh, ← hw] at hsome
    exact soundState_add_knowledge ih
      (Reachable_movesSub (ContractReach_toReachable hr0)) hcM hsome

/-- Concrete contract-consistent state used by witnesses: the result of
probing `(0,0)` on a fresh 2 x 2 engine with the true neighbour count for the
placement with a single mine at `(1,1)`. -/
def witnessState : AI :=
  AI.mk 2 2 {(0, 0)} ∅ {(0, 0)} [⟨{(0, 1), (1, 0), (1, 1)}, 1⟩]

theorem witnessState_reach : ContractReach {(1, 1)} 2 2 witnessState :=
  ContractReach.add_obs (c := (0, 0)) (by decide) ContractReach.init (by decide)

/-- Claim C3: along every trace of public operations consistent with a single
actual mine placement (the collaborator contract of section 6), whenever a
public operation returns, every constraint in the collection has
`0 ≤ count ≤ |cells|`, and no cell of any constraint's cell set is in `safes`
or in `mines`. -/
theorem constraints_sound {M : Finset Cell} {h w : Nat} {ai : AI}
    (hr : ContractReach M h w ai) :
    (∀ s ∈ ai.knowledge, 0 ≤ s.count ∧ s.count ≤ (s.cells.card : Int)) ∧
    (∀ s ∈ ai.knowledge, ∀ c ∈ s.cells, c ∉ ai.safes ∧ c ∉ ai.mines) := by
  have hs := ContractReach_sound hr
  have hsep := Reachable_sepInv (ContractReach_toReachable hr)
  refine ⟨?_, hsep⟩
  intro s hsmem
  have ht := hs.1 s hsmem
  unfold sentenceTrue at ht
  have hle : (s.cells ∩ M).card ≤ s.cells.card :=
    Finset.card_le_card Finset.inter_subset_left
  omega

theorem constraints_sound_witness :
    (0 ≤ (Sentence.mk {(0, 1), (1, 0), (1, 1)} 1).count ∧
      (Sentence.mk {(0, 1), (1, 0), (1, 1)} 1).count ≤
        ((Sentence.mk {(0, 1), (1, 0), (1, 1)} 1).cells.card : Int)) ∧
      ((0, 1) ∉ witnessState.safes ∧ (0, 1) ∉ witnessState.mines) :=
  ⟨(constraints_sound witnessState_reach).1
      (Sentence.mk {(0, 1), (1, 0), (1, 1)} 1) (by decide),
    (constraints_sound witnessState_reach).2
      (Sentence.mk {(0, 1), (1, 0), (1, 1)} 1) (by decide) (0, 1) (by decide)⟩

theorem publicStep_mono {a b : AI} (h : PublicStep a b) :
    a.moves_made ⊆ b.moves_made ∧ a.mines ⊆ b.mines ∧ a.safes ⊆ b.safes := by
  cases h with
  | mark_mine c =>
    exact ⟨Finset.Subset.refl _, Finset.subset_insert c a.mines,
      Finset.Subset.refl _⟩
  | mark_safe c =>
    exact ⟨Finset.Subset.refl _, Finset.Subset.refl _,
      Finset.subset_insert c a.safes⟩
  | add_obs c k hsome =>
    unfold AI.add_knowledge at hsome
    refine loopN_invariant (P := fun x => a.moves_made ⊆ x.moves_made ∧
      a.mines ⊆ x.mines ∧ a.safes ⊆ x.safes) (fun x hx => ?_) ?_ hsome
    · show a.moves_made ⊆ x.passState.moves_made ∧
        a.mines ⊆ x.passState.mines ∧ a.safes ⊆ x.passState.safes
      rw [AI.passState_moves, AI.passState_mines, AI.passState_safes]
      exact ⟨hx.1, Finset.Subset.trans hx.2.1 Finset.subset_union_left,
        Finset.Subset.trans hx.2.2 Finset.subset_union_left⟩
    · show a.moves_made ⊆ (a.obsState c k).moves_made ∧
        a.mines ⊆ (a.obsState c k).mines ∧ a.safes ⊆ (a.obsState c k).safes
      rw [AI.obsState_moves, AI.obsState_mines, AI.obsState_safes]
      exact ⟨Finset.subset_insert _ _, Finset.Subset.refl _,
        Finset.subset_insert _ _⟩

/-- Claim C4 (amended): across any sequence of public engine operations the
sets `moves_made`, `mines` and `safes` only grow — no element is ever removed
— and, provided the calls respect the collaborator contract of section 6, a
cell once in `safes` is never in `mines` and vice versa (with unrestricted
calls the engine performs no cross-check, see the counterexample). -/
theorem growth_and_no_crossing :
    (∀ a b : AI, Relation.ReflTransGen PublicStep a b →
      a.moves_made ⊆ b.moves_made ∧ a.mines ⊆ b.mines ∧ a.safes ⊆ b.safes) ∧
    (∀ (M : Finset Cell) (h w : Nat) (ai : AI), ContractReach M h w ai →
      ∀ c ∈ ai.safes, c ∉ ai.mines) := by
  constructor
  · intro a b hab
    induction hab with
    | refl =>
      exact ⟨Finset.Subset.refl _, Finset.Subset.refl _, Finset.Subset.refl _⟩
    | tail _ hstep ih =>
      have hm := publicStep_mono hstep
      exact ⟨Finset.Subset.trans ih.1 hm.1,
        Finset.Subset.trans ih.2.1 hm.2.1, Finset.Subset.trans ih.2.2 hm.2.2⟩
  · intro M h w ai hr c hcs hcm
    have hs := ContractReach_sound hr
    exact (hs.2.2 c hcs) (hs.2.1 hcm)

theorem growth_and_no_crossing_witness :
    ((AI.init 2 2).moves_made ⊆ ((AI.init 2 2).mark_safe (0, 0)).moves_made ∧
      (AI.init 2 2).mines ⊆ ((AI.init 2 2).mark_safe (0, 0)).mines ∧
      (AI.init 2 2).safes ⊆ ((AI.init 2 2).mark_safe (0, 0)).safes) ∧
      (0, 0) ∉ witnessState.mines :=
  ⟨growth_and_no_crossing.1 _ _
      (Relation.ReflTransGen.single (PublicStep.mark_safe (AI.init 2 2) (0, 0))),
    growth_and_no_crossing.2 {(1, 1)} 2 2 witnessState witnessState_reach
      (0, 0) (by decide)⟩

/-! ### Idempotence of `add_knowledge` -/

/-- Tracking invariant for a fixed observation `(cell, count)`: either the
observation's undetermined neighbourhood (computed on the current state) is
empty, or the sentence `add_knowledge` would build from it on the current
state is already in the knowledge base. -/
def obsTracked (cell : Cell) (count : Int) (ai : AI) : Prop :=
  (adjCells ai.height ai.width cell).filter
      (fun c => c ∉ ai.moves_made ∧ c ∉ ai.safes ∧ c ∉ ai.mines) = ∅ ∨
    (⟨(adjCells ai.height ai.width cell).filter
        (fun c => c ∉ ai.moves_made ∧ c ∉ ai.safes ∧ c ∉ ai.mines),
      count - (((adjCells ai.height ai.width cell).filter
        (fun c => c ∈ ai.mines)).card : Int)⟩ : Sentence) ∈ ai.knowledge

theorem obsTracked_obsState (ai : AI) (cell : Cell) (count : Int) :
    obsTracked cell count (ai.obsState cell count) := by
  unfold obsTracked
  rw [AI.obsState_height, AI.obsState_width]
  simp only [AI.obsState, AI.mark_safe]
  split
  · rename_i hne
    split
    · exact Or.inr (by assumption)
    · exact Or.inr (List.mem_append_right _ (List.mem_singleton.mpr rfl))
  · rename_i hne
    push_neg at hne
    exact Or.inl hne

theorem obsTracked_passState {cell : Cell} {count : Int} {b : AI}
    (hsep : sepInv b) (hmv : movesSub b) (ht : obsTracked cell count b) :
    obsTracked cell count b.passState := by
  have hMa : ∀ x ∈ b.newMines, x ∉ b.moves_made ∧ x ∉ b.safes ∧ x ∉ b.mines := by
    intro x hx
    obtain ⟨hns, hnm⟩ := newMines_not_classified hsep hx
    exact ⟨fun hmov => hns (hmv hmov), hns, hnm⟩
  have hSa : ∀ x ∈ b.newSafes, x ∉ b.moves_made ∧ x ∉ b.safes ∧ x ∉ b.mines := by
    intro x hx
    obtain ⟨hns, hnm⟩ := newSafes_not_classified hsep hx
    exact ⟨fun hmov => hns (hmv hmov), hns, hnm⟩
  unfold obsTracked at ht ⊢
  simp only [AI.passState_height, AI.passState_width, AI.passState_moves,
    AI.passState_safes, AI.passState_mines]
  have hnbeq : (adjCells b.height b.width cell).filter
      (fun c => c ∉ b.moves_made ∧ c ∉ b.safes ∪ b.newSafes ∧
        c ∉ b.mines ∪ b.newMines) =
      ((adjCells b.height b.width cell).filter
        (fun c => c ∉ b.moves_made ∧ c ∉ b.safes ∧ c ∉ b.mines)) \
        (b.newMines ∪ b.newSafes) := by
    ext x
    simp only [Finset.mem_filter, Finset.mem_sdiff, Finset.mem_union]
    constructor
    · rintro ⟨hx, hm, hs, hmi⟩
      exact ⟨⟨hx, hm, fun h2 => hs (Or.inl h2), fun h2 => hmi (Or.inl h2)⟩,
        fun h2 => h2.elim (fun h3 => hmi (Or.inr h3)) (fun h3 => hs (Or.inr h3))⟩
    · rintro ⟨⟨hx, hm, hs, hmi⟩, hnot⟩
      refine ⟨hx, hm, ?_, ?_⟩
      · rintro (h2 | h2)
        · exact hs h2
        · exact hnot (Or.inr h2)
      · rintro (h2 | h2)
        · exact hmi h2
        · exact hnot (Or.inl h2)
  have hcnteq : ((adjCells b.height b.width cell).filter
      (fun c => c ∈ b.mines ∪ b.newMines)).card =
      ((adjCells b.height b.width cell).filter
        (fun c => c ∈ b.mines)).card +
      ((((adjCells b.height b.width cell).filter
        (fun c => c ∉ b.moves_made ∧ c ∉ b.safes ∧ c ∉ b.mines))) ∩
          b.newMines).card := by
    have hsplit : (adjCells b.height b.width cell).filter
        (fun c => c ∈ b.mines ∪ b.newMines) =
        ((adjCells b.height b.width cell).filter (fun c => c ∈ b.mines)) ∪
        (((adjCells b.height b.width cell).filter
          (fun c => c ∉ b.moves_made ∧ c ∉ b.safes ∧ c ∉ b.mines)) ∩
            b.newMines) := by
      ext x
      simp only [Finset.mem_filter, Finset.mem_union, Finset.mem_inter]
      constructor
      · rintro ⟨hx, (hmi | hMa2)⟩
        · exact Or.inl ⟨hx, hmi⟩
        · obtain ⟨ha, hb2, hc2⟩ := hMa x hMa2
          exact Or.inr ⟨⟨hx, ha, hb2, hc2⟩, hMa2⟩
      · rintro (⟨hx, hmi⟩ | ⟨⟨hx, -, -, -⟩, hMa2⟩)
        · exact ⟨hx, Or.inl hmi⟩
        · exact ⟨hx, Or.inr hMa2⟩
    rw [hsplit, Finset.card_union_of_disjoint]
    rw [Finset.disjoint_left]
    rintro x hx1 hx2
    rw [Finset.mem_filter] at hx1
    rw [Finset.mem_inter, Finset.mem_filter] at hx2
    exact hx2.1.2.2.2 hx1.2
  rcases ht with hempty | hmem
  · left
    rw [hnbeq, hempty]
    exact Finset.empty_sdiff _
  · by_cases hne : ((adjCells b.height b.width cell).filter
        (fun c => c ∉ b.moves_made ∧ c ∉ b.safes ∧ c ∉ b.mines)) \
        (b.newMines ∪ b.newSafes) = ∅
    · left
      rw [hnbeq]
      exact hne
    · right
      have hmarked : ((⟨(adjCells b.height b.width cell).filter
            (fun c => c ∉ b.moves_made ∧ c ∉ b.safes ∧ c ∉ b.mines),
          count - (((adjCells b.height b.width cell).filter
            (fun c => c ∈ b.mines)).card : Int)⟩ : Sentence).markMines
              b.newMines).markSafes b.newSafes =
          ⟨((adjCells b.height b.width cell).filter
              (fun c => c ∉ b.moves_made ∧ c ∉ b.safes ∧ c ∉ b.mines)) \
              (b.newMines ∪ b.newSafes),
            count - (((adjCells b.height b.width cell).filter
              (fun c => c ∈ b.mines ∪ b.newMines)).card : Int)⟩ := by
        unfold Sentence.markMines Sentence.markSafes
        dsimp only
        congr 1
        · ext x
          simp only [Finset.mem_sdiff, Finset.mem_union]
          tauto
        · omega
      have hmem2 : ((⟨(adjCells b.height b.width cell).filter
            (fun c => c ∉ b.moves_made ∧ c ∉ b.safes ∧ c ∉ b.mines),
          count - (((adjCells b.height b.width cell).filter
            (fun c => c ∈ b.mines)).card : Int)⟩ : Sentence).markMines
              b.newMines).markSafes b.newSafes ∈ b.markStage.knowledge := by
        rw [AI.markStage_knowledge]
        exact List.mem_map_of_mem _ hmem
      rw [hmarked] at hmem2
      have hdisj : ∀ c ∈ ((adjCells b.height b.width cell).filter
          (fun c => c ∉ b.moves_made ∧ c ∉ b.safes ∧ c ∉ b.mines)) \
          (b.newMines ∪ b.newSafes),
          c ∉ b.markStage.safes ∧ c ∉ b.markStage.mines := by
        intro x hx
        rw [Finset.mem_sdiff, Finset.mem_filter] at hx
        rw [AI.markStage_safes, AI.markStage_mines]
        constructor
        · rw [Finset.mem_union]
          rintro (h2 | h2)
          · exact hx.1.2.2.1 h2
          · exact hx.2 (Finset.mem_union_right _ h2)
        · rw [Finset.mem_union]
          rintro (h2 | h2)
          · exact hx.1.2.2.2 h2
          · exact hx.2 (Finset.mem_union_left _ h2)
      have hmem3 : (⟨((adjCells b.height b.width cell).filter
            (fun c => c ∉ b.moves_made ∧ c ∉ b.safes ∧ c ∉ b.mines)) \
            (b.newMines ∪ b.newSafes),
          count - (((adjCells b.height b.width cell).filter
            (fun c => c ∈ b.mines ∪ b.newMines)).card : Int)⟩ : Sentence) ∈
          b.markStage.reduceStage.knowledge := by
        rw [AI.reduceStage_knowledge, List.mem_filter]
        constructor
        · rw [List.mem_map]
          refine ⟨_, hmem2, ?_⟩
          refine reduceSentence_eq_self ?_
          intro x hx
          exact hdisj x hx
        · exact decide_eq_true hne
      have hmem4 : (⟨((adjCells b.height b.width cell).filter
            (fun c => c ∉ b.moves_made ∧ c ∉ b.safes ∧ c ∉ b.mines)) \
            (b.newMines ∪ b.newSafes),
          count - (((adjCells b.height b.width cell).filter
            (fun c => c ∈ b.mines ∪ b.newMines)).card : Int)⟩ : Sentence) ∈
          b.passState.knowledge := by
        unfold AI.passState
        rw [AI.inferStage_knowledge]
        exact List.mem_append_left _ hmem3
      rw [hnbeq]
      exact hmem4

theorem cell_in_after {ai r : AI} {cell : Cell} {count : Int}
    (hsome : ai.add_knowledge cell count = some r) :
    cell ∈ r.moves_made ∧ cell ∈ r.safes := by
  unfold AI.add_knowledge at hsome
  refine loopN_invariant (P := fun b => cell ∈ b.moves_made ∧ cell ∈ b.safes)
    (fun b hb => ?_) ?_ hsome
  · show cell ∈ b.passState.moves_made ∧ cell ∈ b.passState.safes
    rw [AI.passState_moves, AI.passState_safes]
    exact ⟨hb.1, Finset.mem_union_left _ hb.2⟩
  · show cell ∈ (ai.obsState cell count).moves_made ∧
      cell ∈ (ai.obsState cell count).safes
    rw [AI.obsState_moves, AI.obsState_safes]
    exact ⟨Finset.mem_insert_self _ _, Finset.mem_insert_self _ _⟩

theorem obsTracked_add_knowledge {ai r : AI} {cell : Cell} {count : Int}
    (hsep : sepInv ai) (hmv : movesSub ai)
    (hsome : ai.add_knowledge cell count = some r) :
    obsTracked cell count r := by
  unfold AI.add_knowledge at hsome
  exact (loopN_invariant
    (P := fun b => sepInv b ∧ movesSub b ∧ obsTracked cell count b)
    (fun b hb => ⟨sepInv_passState b, movesSub_passState hb.2.1,
      obsTracked_passState hb.1 hb.2.1 hb.2.2⟩)
    ⟨sepInv_obsState hsep cell count, movesSub_obsState hmv cell count,
      obsTracked_obsState ai cell count⟩ hsome).2.2

theorem obsState_eq_self {r : AI} {cell : Cell} {count : Int}
    (hsepR : sepInv r) (hcm : cell ∈ r.moves_made) (hcs : cell ∈ r.safes)
    (htrk : obsTracked cell count r) : r.obsState cell count = r := by
  have h1 : ({ r with moves_made := insert cell r.moves_made } : AI) = r :=
    AI.eq_of_fields rfl rfl (Finset.insert_eq_self.mpr hcm) rfl rfl rfl
  have h2 : AI.mark_safe r cell = r := by
    refine AI.eq_of_fields rfl rfl rfl rfl (Finset.insert_eq_self.mpr hcs) ?_
    refine list_map_id_of _ _ ?_
    intro s hs
    unfold Sentence.mark_safe
    rw [if_neg]
    intro hc
    exact (hsepR s hs cell hc).1 hcs
  simp only [AI.obsState]
  rw [h1, h2]
  unfold obsTracked at htrk
  rcases htrk with hempty | hmem
  · rw [if_neg (not_not_intro hempty)]
  · by_cases hne : (adjCells r.height r.width cell).filter
        (fun c => c ∉ r.moves_made ∧ c ∉ r.safes ∧ c ∉ r.mines) ≠ ∅
    · rw [if_pos hne, if_pos hmem]
    · rw [if_neg hne]

theorem add_knowledge_idem {ai r : AI} {cell : Cell} {count : Int}
    (hsep : sepInv ai) (hmv : movesSub ai)
    (hsome : ai.add_knowledge cell count = some r) :
    r.add_knowledge cell count = some r := by
  have htrk := obsTracked_add_knowledge hsep hmv hsome
  have hsepR : sepInv r := sepInv_add_knowledge hsome
  have hcells := cell_in_after hsome
  have hexit : ¬ r.passChanged ∧ r.passState = r := by
    unfold AI.add_knowledge at hsome
    exact loopN_exit (sepInv_obsState hsep cell count) hsome
  have hobs := obsState_eq_self hsepR hcells.1 hcells.2 htrk
  unfold AI.add_knowledge
  rw [hobs]
  rw [loopN]
  rw [if_neg hexit.1, hexit.2]

/-- Claim C9: re-invoking `add_knowledge` with the same cell and count
immediately after it returns is a no-op — the second call returns exactly the
same state (so `constraints`, `safes`, `mines` and `moves_made` are all
unchanged): the repeated bookkeeping steps do nothing on the returned state
and its first loop pass reports no change. -/
theorem add_observation_idempotent {ai r : AI} {cell : Cell} {count : Int}
    (h : Reachable ai) (hsome : ai.add_knowledge cell count = some r) :
    r.add_knowledge cell count = some r :=
  add_knowledge_idem (Reachable_sepInv h) (Reachable_movesSub h) hsome

theorem add_observation_idempotent_witness :
    witnessState.add_knowledge (0, 0) 1 = some witnessState :=
  add_observation_idempotent (Reachable.init 2 2) (by decide)
